import Mathlib

/-!
# Auto Decode: decoders and auto-detection (`assets/script.js`)

A shallow embedding of the decoders, the scorer, the byte derivation, the single-byte XOR
search and the auto-detection of `assets/script.js`, and the properties proved of them.

* A JavaScript string is the list of its UTF-16 code units; a byte array is a list of
  numbers below 256.
* A decoder that can throw returns `Except String Str`, the error being the message of
  the `Error` thrown.
* `atob`, `TextDecoder`, `TextEncoder`, `trim`, `split` and the class `\s` follow the HTML,
  Encoding and ECMAScript standards. What the browser provides and no property here
  depends on (entity decoding, `decodeURIComponent`, `toUpperCase`, the inherited
  properties of an object) is a parameter, `Host`.
* A Number is the rational value of a double. The arithmetic of `scoreText` is IEEE 754
  double arithmetic: every operation gives the double nearest to the exact result, ties to
  the even significand (`toDouble`). The exponent range is not bounded: the counts of a
  string, below 2^53, keep every value of `scoreText` far from overflow and underflow.
-/

namespace AutoDecode

/-- A JavaScript string: its sequence of UTF-16 code units. -/
abbrev Str := List Nat

/-- UTF-16 code units of a Lean string literal (surrogate pairs above U+FFFF). -/
def ofString (s : String) : Str :=
  s.toList.flatMap fun ch =>
    let c := ch.toNat
    if c < 65536 then [c] else [55296 + (c - 65536) / 1024, 56320 + (c - 65536) % 1024]

/-- JavaScript `%` on integers: the remainder takes the sign of the dividend. -/
def jsRem (a b : Int) : Int := Int.tmod a b

/-- `String.fromCharCode(n)` for an integer `n`: the code unit `ToUint16(n)`. -/
def fromCharCode (n : Int) : Nat := (n % 65536).toNat

/-- The character class `[A-Za-z]`. -/
def isLetter (c : Nat) : Bool := (65 ≤ c && c ≤ 90) || (97 ≤ c && c ≤ 122)

/-- The expression `c <= 'Z' ? 65 : 97` of the letter callbacks. -/
def letterBase (c : Nat) : Nat := if c ≤ 90 then 65 else 97

/-- Alphabet offset `c.charCodeAt(0) - base` of a letter. -/
def letterOffset (c : Nat) : Nat := c - letterBase c

/-- `input.replace(/[A-Za-z]/g, f)`: every letter is replaced by `f` of it. -/
def replaceLetters (f : Nat → Nat) (input : Str) : Str :=
  input.map fun c => if isLetter c then f c else c

/-- Callback of `decoders.rot13`. -/
def rot13Char (c : Nat) : Nat :=
  let base : Int := letterBase c
  fromCharCode (jsRem ((c : Int) - base + 13) 26 + base)

/-- Source: `decoders.rot13`. -/
def rot13 (input : Str) : Str := replaceLetters rot13Char input

/-- Callback of `decoders.atbash`. -/
def atbashChar (c : Nat) : Nat :=
  let base : Int := letterBase c
  let off : Int := (c : Int) - base
  fromCharCode (base + (25 - off))

/-- Source: `decoders.atbash`. -/
def atbash (input : Str) : Str := replaceLetters atbashChar input

/-- Source: `decoders.reverse`, `input.split('').reverse().join('')`. -/
def reverse (input : Str) : Str := input.reverse

/-- Callback of `decoders.caesar` for the numeric shift `s`. -/
def caesarChar (s : Int) (c : Nat) : Nat :=
  let base : Int := letterBase c
  fromCharCode (jsRem ((c : Int) - base - s + 26) 26 + base)

/-- Source: `decoders.caesar(input, shift)` for an integer `shift`
(`Number(shift)||0` is then `shift` itself; the default of the parameter is 13). -/
def caesar (input : Str) (shift : Int) : Str := replaceLetters (caesarChar shift) input

/-- `cleanKey[i]` / `cleanKey.charCodeAt(i)` for an index inside the string. -/
def charAt (s : Str) (i : Nat) : Nat := s.getD i 0

/-- Callback of `vigenereDecrypt` at key counter `ki`. -/
def vigenereChar (cleanKey : Str) (ki : Nat) (c : Nat) : Nat :=
  let base : Int := letterBase c
  let k := charAt cleanKey (ki % cleanKey.length)
  let kbase : Int := letterBase k
  let shift : Int := jsRem ((k : Int) - kbase) 26
  fromCharCode (jsRem ((c : Int) - base - shift + 26) 26 + base)

/-- The `replace` of `vigenereDecrypt`, with the counter `ki` advanced at each letter. -/
def vigenereLoop (cleanKey : Str) : Nat → Str → Str
  | _, [] => []
  | ki, c :: cs =>
    if isLetter c then vigenereChar cleanKey ki c :: vigenereLoop cleanKey (ki + 1) cs
    else c :: vigenereLoop cleanKey ki cs

/-- Source: `vigenereDecrypt(input, key)`. -/
def vigenereDecrypt (input key : Str) : Except String Str :=
  if key = [] then .error "Missing Vigenère key"
  else
    let cleanKey := key.filter isLetter
    if cleanKey = [] then .error "Invalid key"
    else .ok (vigenereLoop cleanKey 0 input)

deriving instance DecidableEq for Except

/-! ## String helpers of the platform -/

/-- The class `\s` of JavaScript regular expressions, which is also what `trim()` strips:
WhiteSpace and LineTerminator code units. -/
def isSpace (c : Nat) : Bool :=
  c == 9 || c == 10 || c == 11 || c == 12 || c == 13 || c == 32 || c == 160 || c == 5760 ||
  (8192 ≤ c && c ≤ 8202) || c == 8232 || c == 8233 || c == 8239 || c == 8287 || c == 12288 ||
  c == 65279

/-- `String.prototype.trim`. -/
def trim (s : Str) : Str := ((s.dropWhile isSpace).reverse.dropWhile isSpace).reverse

/-- `s.replace(/\s+/g, '')`. -/
def removeSpaces (s : Str) : Str := s.filter fun c => !isSpace c

/-- `s.split(/\s+/)`: `inRun` tells that the previous code unit was part of a separator,
`cur` is the current piece, reversed. -/
def splitSpacesAux : Bool → Str → Str → List Str
  | _, cur, [] => [cur.reverse]
  | inRun, cur, c :: rest =>
    if isSpace c then
      if inRun then splitSpacesAux true cur rest
      else cur.reverse :: splitSpacesAux true [] rest
    else splitSpacesAux false (c :: cur) rest

/-- `s.split(/\s+/)`. -/
def splitSpaces (s : Str) : List Str := splitSpacesAux false [] s

/-- The class `[0-9a-fA-F]`. -/
def isHexDigit (c : Nat) : Bool :=
  (48 ≤ c && c ≤ 57) || (97 ≤ c && c ≤ 102) || (65 ≤ c && c ≤ 70)

/-- Value of one hexadecimal digit. -/
def hexVal (c : Nat) : Nat :=
  if 48 ≤ c ∧ c ≤ 57 then c - 48 else if 97 ≤ c ∧ c ≤ 102 then c - 87 else c - 55

/-- The loop `for(i=0;i<s.length;i+=2) parseInt(s.substr(i,2),16)` over a string of
hexadecimal digits; a last single digit is parsed alone. -/
def hexPairs : Str → List Nat
  | a :: b :: rest => (hexVal a * 16 + hexVal b) :: hexPairs rest
  | [a] => [hexVal a]
  | [] => []

/-! ## UTF-8 and UTF-16 (WHATWG Encoding, ECMAScript strings) -/

/-- State of the WHATWG UTF-8 decoder. -/
structure Utf8State where
  codePoint : Nat := 0
  bytesSeen : Nat := 0
  bytesNeeded : Nat := 0
  lower : Nat := 128
  upper : Nat := 191
  deriving DecidableEq, Repr

/-- The handler of the UTF-8 decoder for a byte read while no sequence is open
(`bytes needed` is 0): the code points emitted and the next state. An invalid byte
emits U+FFFD (error mode `replacement`). -/
def utf8Lead (b : Nat) : List Nat × Utf8State :=
  if b ≤ 127 then ([b], {})
  else if 194 ≤ b ∧ b ≤ 223 then ([], { codePoint := b % 32, bytesNeeded := 1 })
  else if 224 ≤ b ∧ b ≤ 239 then
    ([], { codePoint := b % 16, bytesNeeded := 2,
           lower := if b = 224 then 160 else 128, upper := if b = 237 then 159 else 191 })
  else if 240 ≤ b ∧ b ≤ 244 then
    ([], { codePoint := b % 8, bytesNeeded := 3,
           lower := if b = 240 then 144 else 128, upper := if b = 244 then 143 else 191 })
  else ([65533], {})

/-- The WHATWG UTF-8 decoder run over a byte list from state `st`, errors replaced by
U+FFFD. `byte & 0x3F` is `b % 64` and `(cp << 6) | x` is `cp * 64 + x`. A byte outside
the boundaries ends the open sequence with U+FFFD and is then read again as a lead byte. -/
def utf8DecodeFrom : Utf8State → List Nat → List Nat
  | st, [] => if st.bytesNeeded ≠ 0 then [65533] else []
  | st, b :: bs =>
    if st.bytesNeeded = 0 then
      (utf8Lead b).1 ++ utf8DecodeFrom (utf8Lead b).2 bs
    else if b < st.lower ∨ st.upper < b then
      65533 :: ((utf8Lead b).1 ++ utf8DecodeFrom (utf8Lead b).2 bs)
    else
      let cp := st.codePoint * 64 + b % 64
      if st.bytesSeen + 1 ≠ st.bytesNeeded then
        utf8DecodeFrom { codePoint := cp, bytesSeen := st.bytesSeen + 1,
                         bytesNeeded := st.bytesNeeded } bs
      else cp :: utf8DecodeFrom {} bs

/-- BOM handling of `TextDecoder` with the default `ignoreBOM: false`: a first code point
U+FEFF is dropped. -/
def stripBOM : List Nat → List Nat
  | 65279 :: rest => rest
  | cps => cps

/-- Code points to UTF-16 code units. -/
def toUtf16 (cps : List Nat) : Str :=
  cps.flatMap fun c =>
    if c < 65536 then [c] else [55296 + (c - 65536) / 1024, 56320 + (c - 65536) % 1024]

/-- `new TextDecoder('utf-8').decode(bytes)` (also with `{fatal:false}`, the default). -/
def utf8Decode (bytes : List Nat) : Str :=
  toUtf16 (stripBOM (utf8DecodeFrom {} bytes))

/-- The scalar values of a JavaScript string; a lone surrogate becomes U+FFFD. -/
def fromUtf16 : Str → List Nat
  | [] => []
  | [c] => if 55296 ≤ c ∧ c ≤ 57343 then [65533] else [c]
  | c :: d :: rest =>
    if 55296 ≤ c ∧ c ≤ 56319 ∧ 56320 ≤ d ∧ d ≤ 57343 then
      (65536 + (c - 55296) * 1024 + (d - 56320)) :: fromUtf16 rest
    else (if 55296 ≤ c ∧ c ≤ 57343 then 65533 else c) :: fromUtf16 (d :: rest)

/-- UTF-8 bytes of one scalar value (WHATWG UTF-8 encoder). -/
def utf8EncodeChar (c : Nat) : List Nat :=
  if c ≤ 127 then [c]
  else if c ≤ 2047 then [192 + c / 64, 128 + c % 64]
  else if c ≤ 65535 then [224 + c / 4096, 128 + c / 64 % 64, 128 + c % 64]
  else [240 + c / 262144, 128 + c / 4096 % 64, 128 + c / 64 % 64, 128 + c % 64]

/-- UTF-8 bytes of a sequence of scalar values. -/
def utf8Encode (cps : List Nat) : List Nat := cps.flatMap utf8EncodeChar

/-- `new TextEncoder().encode(s)`. -/
def textEncode (s : Str) : List Nat := utf8Encode (fromUtf16 s)

/-! ## `atob` (HTML forgiving-base64 decode) -/

/-- ASCII whitespace: TAB, LF, FF, CR, SPACE. -/
def isAsciiSpace (c : Nat) : Bool := c == 9 || c == 10 || c == 12 || c == 13 || c == 32

/-- Value of a Base64 alphabet character (`A-Z a-z 0-9 + /`). -/
def b64Value (c : Nat) : Option Nat :=
  if 65 ≤ c ∧ c ≤ 90 then some (c - 65)
  else if 97 ≤ c ∧ c ≤ 122 then some (c - 71)
  else if 48 ≤ c ∧ c ≤ 57 then some (c + 4)
  else if c = 43 then some 62
  else if c = 47 then some 63
  else none

/-- Sextets to bytes: 24 bits give three bytes; of 12 left-over bits the last four are
discarded, of 18 the last two. -/
def b64Bytes : List Nat → List Nat
  | a :: b :: c :: d :: rest =>
    let n := ((a * 64 + b) * 64 + c) * 64 + d
    (n / 65536) :: (n / 256 % 256) :: (n % 256) :: b64Bytes rest
  | [a, b, c] =>
    let n := ((a * 64 + b) * 64 + c) / 4
    [n / 256, n % 256]
  | [a, b] => [(a * 64 + b) / 16]
  | _ => []

/-- Removal of one or two trailing `=`. -/
def stripPadding (d : Str) : Str :=
  match d.reverse with
  | 61 :: 61 :: r => r.reverse
  | 61 :: r => r.reverse
  | _ => d

/-- `atob(data)`: the bytes of the binary string, or `none` for `InvalidCharacterError`. -/
def atob (data : Str) : Option (List Nat) :=
  let d := data.filter fun c => !isAsciiSpace c
  let d := if d.length % 4 = 0 then stripPadding d else d
  if d.length % 4 = 1 then none
  else if d.all fun c => (b64Value c).isSome then
    some (b64Bytes (d.map fun c => (b64Value c).getD 0))
  else none

/-! ## Standard Base64 encoding, the inverse that the round-trip property speaks of -/

/-- Character of a 6-bit value in the alphabet `A-Z a-z 0-9 + /` (RFC 4648, table 1). -/
def b64Char (v : Nat) : Nat :=
  if v < 26 then 65 + v
  else if v < 52 then 71 + v
  else if v < 62 then v - 4
  else if v = 62 then 43
  else 47

/-- The 6-bit groups of a byte sequence, the last group filled with zero bits
(RFC 4648, section 4). -/
def sextetsOf : List Nat → List Nat
  | a :: b :: c :: rest =>
    (a / 4) :: (a % 4 * 16 + b / 16) :: (b % 16 * 4 + c / 64) :: (c % 64) :: sextetsOf rest
  | [a, b] => [a / 4, a % 4 * 16 + b / 16, b % 16 * 4]
  | [a] => [a / 4, a % 4 * 16]
  | [] => []

/-- Standard Base64 with padding (RFC 4648, section 4): the characters of the 6-bit
groups, then `=` up to a multiple of four characters. The repository has no encoder;
this is the one its round-trip property is stated against. -/
def stdBase64Encode (bytes : List Nat) : Str :=
  (sextetsOf bytes).map b64Char ++ List.replicate ((3 - bytes.length % 3) % 3) 61

/-- Unicode scalar values: code points other than surrogates. -/
def isScalarValue (c : Nat) : Bool := c < 55296 || (57344 ≤ c && c ≤ 1114111)

/-! ## The decoders -/

/-- The two `replace` calls that turn the URL-safe `-` and `_` into `+` and `/`. -/
def urlSafeToStd (s : Str) : Str := s.map fun c => if c = 45 then 43 else if c = 95 then 47 else c

/-- The loop `while(s.length % 4 !== 0) s += '='`. -/
def padTo4 (s : Str) : Str := s ++ List.replicate ((4 - s.length % 4) % 4) 61

/-- Source: `decoders.base64`. -/
def base64 (input : Str) : Except String Str :=
  let s := padTo4 (urlSafeToStd (removeSpaces (trim input)))
  match atob s with
  | some binary => .ok (utf8Decode binary)
  | none => .error "Invalid Base64"

/-- Source: `decoders.hex`. -/
def hex (input : Str) : Except String Str :=
  let s := input.filter isHexDigit
  if s.length < 2 then .error "Invalid hex"
  else .ok (utf8Decode (hexPairs s))

/-- Value of a string of binary digits. -/
def binVal (b : Str) : Nat := b.foldl (fun acc c => acc * 2 + (c - 48)) 0

/-- The Number (IEEE double) nearest to a natural number, ties to even. -/
def roundToDouble (n : Nat) : Nat :=
  if n < 2 ^ 53 then n
  else
    let k := Nat.log2 n - 52
    let q := n / 2 ^ k
    let r := n % 2 ^ k
    let half := 2 ^ (k - 1)
    (if half < r ∨ (r = half ∧ q % 2 = 1) then q + 1 else q) * 2 ^ k

/-- The expression `String.fromCharCode(parseInt(b,2))` for a non-empty string of binary digits. -/
def binChar (b : Str) : Nat := fromCharCode (roundToDouble (binVal b))

/-- The loop `for(i=0;i<s.length;i+=8) arr.push(s.substr(i,8))`, `fuel` bounding its rounds. -/
def chop8 : Nat → Str → List Str
  | 0, _ => []
  | fuel + 1, s => if s = [] then [] else s.take 8 :: chop8 fuel (s.drop 8)

/-- Source: `decoders.binary`. -/
def binary (input : Str) : Except String Str :=
  let s := trim (input.filter fun c => c == 48 || c == 49 || isSpace c)
  if s = [] then .error "Invalid binary"
  else
    let parts := splitSpaces s
    if parts.length = 1 ∧ (parts.headD []).length % 8 = 0 then
      .ok ((chop8 (parts.headD []).length (parts.headD [])).map binChar)
    else .ok (parts.map binChar)

/-- The `map` object of `decoders.leet`. -/
def leetMap (c : Nat) : Option Nat :=
  if c = 52 then some 97 else if c = 64 then some 97 else if c = 56 then some 98
  else if c = 51 then some 101 else if c = 54 then some 103 else if c = 49 then some 108
  else if c = 48 then some 111 else if c = 53 then some 115 else if c = 55 then some 116
  else if c = 50 then some 122 else if c = 36 then some 115 else if c = 43 then some 116
  else none

/-- The class `[@43610527$+]` of `decoders.leet`. -/
def isLeetChar (c : Nat) : Bool :=
  c == 64 || c == 52 || c == 51 || c == 54 || c == 49 || c == 48 || c == 53 || c == 50 ||
  c == 55 || c == 36 || c == 43

/-- Source: `decoders.leet`. -/
def leet (input : Str) : Str :=
  input.map fun c => if isLeetChar c then (leetMap c).getD c else c

/-- What the browser provides and the repository does not define. -/
structure Host where
  /-- `String.prototype.toUpperCase`. -/
  toUpperCase : Str → Str
  /-- Entity decoding through a `textarea` element (`decoders.html`). -/
  htmlDecode : Str → Except String Str
  /-- The global `decodeURIComponent`; an error stands for `URIError`. -/
  decodeURIComponent : Str → Except String Str
  /-- Text that `Array.prototype.join` makes of the property of `Object.prototype` of the
  given name, if there is one (`constructor`, `toString`, ...). -/
  inheritedText : Str → Option Str

/-- `alphabet.indexOf(ch)` for the Base32 alphabet `A-Z2-7`. -/
def b32Value (c : Nat) : Option Nat :=
  if 65 ≤ c ∧ c ≤ 90 then some (c - 65)
  else if 50 ≤ c ∧ c ≤ 55 then some (c - 24)
  else none

/-- `s.replace(/=+$/, '')`. -/
def stripTrailingEq (s : Str) : Str := (s.reverse.dropWhile fun c => c == 61).reverse

/-- `idx.toString(2).padStart(5,'0')` as a list of bits. -/
def bits5 (v : Nat) : List Nat := [v / 16 % 2, v / 8 % 2, v / 4 % 2, v / 2 % 2, v % 2]

/-- The loop `for(i=0;i+8<=bits.length;i+=8) parseInt(bits.substr(i,8),2)`. -/
def bitsToBytes : List Nat → List Nat
  | a :: b :: c :: d :: e :: f :: g :: h :: rest =>
    (((((((a * 2 + b) * 2 + c) * 2 + d) * 2 + e) * 2 + f) * 2 + g) * 2 + h) :: bitsToBytes rest
  | _ => []

/-- Source: `decoders.base32`. -/
def base32 (host : Host) (input : Str) : Except String Str :=
  let s := (host.toUpperCase input).filter fun c =>
    (65 ≤ c && c ≤ 90) || (50 ≤ c && c ≤ 55) || c == 61
  let s := stripTrailingEq s
  if s.all fun c => (b32Value c).isSome then
    .ok (utf8Decode (bitsToBytes (s.flatMap fun c => bits5 ((b32Value c).getD 0))))
  else .error "Invalid Base32"

/-- The `table` object of `decoders.morse`: its own properties, as text. -/
def morseTable : List (String × String) :=
  [(".-", "A"), ("-...", "B"), ("-.-.", "C"), ("-..", "D"), (".", "E"), ("..-.", "F"),
   ("--.", "G"), ("....", "H"), ("..", "I"), (".---", "J"), ("-.-", "K"), (".-..", "L"),
   ("--", "M"), ("-.", "N"), ("---", "O"), (".--.", "P"), ("--.-", "Q"), (".-.", "R"),
   ("...", "S"), ("-", "T"), ("..-", "U"), ("...-", "V"), (".--", "W"), ("-..-", "X"),
   ("-.--", "Y"), ("--..", "Z"),
   ("-----", "0"), (".----", "1"), ("..---", "2"), ("...--", "3"), ("....-", "4"),
   (".....", "5"), ("-....", "6"), ("--...", "7"), ("---..", "8"), ("----.", "9"),
   (".-.-.-", "."), ("--..--", ","), ("..--..", "?"), ("-.-.--", "!"), ("-..-.", "/"),
   ("-.--.", "("), ("-.--.-", ")"), ("---...", ":"), ("-.-.-.", ";"), ("-....-", "-"),
   (".-.-.", "+"), ("-...-", "="), (".-..-.", "\x22"), ("...-..-", "$"), (".-...", "&"),
   ("/", "/")]

/-- Own-property lookup `table[s]`. -/
def morseOwn (s : Str) : Option Str :=
  (morseTable.find? fun kv => decide (ofString kv.1 = s)).map fun kv => ofString kv.2

/-- The expression `table[s] || '?'` as the text that the later `join('')` makes of it:
an own property, else a property inherited from `Object.prototype`, else `?`. -/
def morseLookup (host : Host) (s : Str) : Str :=
  match morseOwn s with
  | some v => v
  | none =>
    match host.inheritedText s with
    | some v => v
    | none => [63]

/-- The replacement of every `|` by ` / `. -/
def pipeToSlash (s : Str) : Str := s.flatMap fun c => if c = 124 then [32, 47, 32] else [c]

/-- Length of the match of the separator pattern of `decoders.morse` (two or more spaces,
else space slash space, else space slash, else slash space) at the head of `s`; 0 when it
does not match there. -/
def morseSepLength : Str → Nat
  | a :: b :: rest =>
    if isSpace a && isSpace b then 2 + (rest.takeWhile isSpace).length
    else if isSpace a && b == 47 then
      match rest with
      | c :: _ => if isSpace c then 3 else 2
      | [] => 2
    else if a == 47 && isSpace b then 2
    else 0
  | _ => 0

/-- `s.split(sep)` for the separator pattern of `decoders.morse`: `skip` code units of a
match are still to be dropped, `cur` is the current piece, reversed. -/
def splitMorseAux : Nat → Str → Str → List Str
  | _, cur, [] => [cur.reverse]
  | skip + 1, cur, _ :: rest => splitMorseAux skip cur rest
  | 0, cur, c :: rest =>
    if morseSepLength (c :: rest) = 0 then splitMorseAux 0 (c :: cur) rest
    else cur.reverse :: splitMorseAux (morseSepLength (c :: rest) - 1) [] rest

/-- `arr.join(sep)` for strings. -/
def joinWith (sep : Str) (parts : List Str) : Str := List.intercalate sep parts

/-- Source: `decoders.morse`. -/
def morse (host : Host) (input : Str) : Except String Str :=
  let words := splitMorseAux 0 [] (pipeToSlash (trim input))
  let out := joinWith [32] (words.map fun w =>
    joinWith [] ((splitSpaces (trim w)).map (morseLookup host)))
  if out = [] then .error "Invalid morse" else .ok out

/-! ## Byte derivation, scoring, XOR search -/

/-- Source: `toBytes`. -/
def toBytes (input : Str) : List Nat :=
  let s := trim input
  if s ≠ [] ∧ (s.all fun c => isHexDigit c || isSpace c) = true ∧
      (removeSpaces s).length % 2 = 0 then
    hexPairs (removeSpaces s)
  else
    let cleaned := urlSafeToStd (removeSpaces s)
    if cleaned.length % 4 = 0 then
      match atob cleaned with
      | some bin => bin
      | none => textEncode s
    else textEncode s

/-- The class `[aeiouAEIOU]`. -/
def isVowel (c : Nat) : Bool :=
  c == 97 || c == 101 || c == 105 || c == 111 || c == 117 ||
  c == 65 || c == 69 || c == 73 || c == 79 || c == 85

/-- The test `c >= ' ' && c <= '~'`. -/
def isPrintableChar (c : Nat) : Bool := 32 ≤ c && c ≤ 126

/-- Number of code units of `s` in a class. -/
def countIn (p : Nat → Bool) (s : Str) : Nat := (s.filter p).length

/-- Integer nearest to `num / den`, a tie going to the even one. -/
def roundHalfEven (num den : Nat) : Nat :=
  if den < 2 * (num % den) ∨ (2 * (num % den) = den ∧ num / den % 2 = 1) then num / den + 1
  else num / den

/-- Halving loop of `floorLog2`; `fuel` bounds the number of rounds. -/
def log2Fuel : Nat → Nat → Nat
  | 0, _ => 0
  | fuel + 1, n => if n < 2 then 0 else log2Fuel fuel (n / 2) + 1

/-- Position of the leading binary digit of `n`: the largest `k` with `2 ^ k ≤ n`, and 0
for 0. -/
def floorLog2 (n : Nat) : Nat := log2Fuel n n

/-- The double nearest to the positive rational `n / d`, ties to even. The quotient is
scaled by a power of two, `2 ^ up / 2 ^ down` with one of the two exponents 0, so that it
lies between 2^52 and 2^53, where the doubles are the integers; `floorLog2` places it
between 2^51 and 2^53 and the test settles which of the two binades it is in. -/
def roundPos (n d : Nat) : ℚ :=
  let up := (floorLog2 d + 52) - floorLog2 n
  let down := floorLog2 n - (floorLog2 d + 52)
  let a := n * 2 ^ up
  let b := d * 2 ^ down
  if b * 2 ^ 52 ≤ a then
    ((roundHalfEven a b * 2 ^ down : Nat) : ℚ) / ((2 ^ up : Nat) : ℚ)
  else
    ((roundHalfEven (2 * a) b * 2 ^ down : Nat) : ℚ) / ((2 ^ (up + 1) : Nat) : ℚ)

/-- The double nearest to a rational, ties to even (IEEE 754 `roundTiesToEven` for the
53-bit significand of a double). -/
def toDouble (x : ℚ) : ℚ :=
  if 0 < x then roundPos x.num.natAbs x.den
  else if x < 0 then -roundPos x.num.natAbs x.den
  else 0

/-- Sum of two Numbers. -/
def dadd (x y : ℚ) : ℚ := toDouble (x + y)

/-- Product of two Numbers. -/
def dmul (x y : ℚ) : ℚ := toDouble (x * y)

/-- Quotient of two Numbers, the divisor not 0. -/
def ddiv (x y : ℚ) : ℚ := toDouble (x / y)

/-- Source: `scoreText`. The counts are lengths of arrays, integers that a Number holds
exactly; `letters*2 + vowels*3 + spaces*1.5` associates to the left. -/
def scoreText (t : Str) : ℚ :=
  if t = [] then 0
  else
    let letters : ℚ := countIn isLetter t
    let vowels : ℚ := countIn isVowel t
    let spaces : ℚ := countIn isSpace t
    let printableRatio : ℚ := ddiv (countIn isPrintableChar t) t.length
    dmul (dadd (dadd (dmul letters 2) (dmul vowels 3)) (dmul spaces (3 / 2))) printableRatio

/-- A candidate `{algo, variant, text, score}`; `variant` is absent for the decoders
that have none. -/
structure Candidate where
  algo : String
  variant : Option Nat
  text : Str
  score : ℚ
  deriving DecidableEq

/-- `arr.sort((a,b)=>b.score-a.score)`: the stable sort that puts `a` before `b` when
`b.score - a.score` is not positive. -/
def sortByScore (l : List Candidate) : List Candidate :=
  l.insertionSort fun a b => b.score ≤ a.score

/-- The text that `trySingleByteXor` decodes for one key. -/
def xorText (bytes : List Nat) (key : Nat) : Str := utf8Decode (bytes.map fun b => b ^^^ key)

/-- The candidate `{algo:'xor', variant:key, text, score:sc}` of one key. -/
def xorCandidate (bytes : List Nat) (key : Nat) : Candidate :=
  { algo := "xor", variant := some key, text := xorText bytes key,
    score := scoreText (xorText bytes key) }

/-- The candidates that the loop of `trySingleByteXor` pushes, keys 1 to 255 in order. -/
def xorCandidates (bytes : List Nat) : List Candidate :=
  (List.range' 1 255).filterMap fun key =>
    let text := xorText bytes key
    let sc := scoreText text
    if sc > 0 then some { algo := "xor", variant := some key, text := text, score := sc }
    else none

/-- Source: `trySingleByteXor`. -/
def trySingleByteXor (input : Str) : List Candidate :=
  (sortByScore (xorCandidates (toBytes input))).take 8

/-! ## Auto-detection -/

/-- The keys of the `decoders` object, in the order of `Object.keys`. -/
inductive Scheme
  | base64 | hex | binary | rot13 | leet | atbash | base32 | reverse | html | morse
  | caesar | url
  deriving DecidableEq, Repr

/-- Property name of a decoder. -/
def Scheme.name : Scheme → String
  | .base64 => "base64" | .hex => "hex" | .binary => "binary" | .rot13 => "rot13"
  | .leet => "leet" | .atbash => "atbash" | .base32 => "base32" | .reverse => "reverse"
  | .html => "html" | .morse => "morse" | .caesar => "caesar" | .url => "url"

/-- `Object.keys(decoders)`. -/
def Scheme.all : List Scheme :=
  [.base64, .hex, .binary, .rot13, .leet, .atbash, .base32, .reverse, .html, .morse,
   .caesar, .url]

/-- The call `decoders[key](input)` with one argument (`caesar` then takes its default
shift 13). -/
def runDecoder (host : Host) (key : Scheme) (input : Str) : Except String Str :=
  match key with
  | .base64 => base64 input
  | .hex => hex input
  | .binary => binary input
  | .rot13 => .ok (rot13 input)
  | .leet => .ok (leet input)
  | .atbash => .ok (atbash input)
  | .base32 => base32 host input
  | .reverse => .ok (reverse input)
  | .html => host.htmlDecode input
  | .morse => morse host input
  | .caesar => .ok (caesar input 13)
  | .url => host.decodeURIComponent input

/-- The record `best` of the Caesar branch of `tryAll`. -/
structure CaesarBest where
  score : ℚ
  shift : Nat
  text : Str

/-- The loop `for(shift=1;shift<26;shift++)` of `tryAll`. -/
def caesarBest (input : Str) : CaesarBest :=
  (List.range' 1 25).foldl
    (fun (best : CaesarBest) (shift : Nat) =>
      let t := caesar input (shift : Int)
      let sc := scoreText t
      if sc > best.score then { score := sc, shift := shift, text := t } else best)
    { score := 0, shift := 0, text := [] }

/-- What one round of the loop over `Object.keys(decoders)` pushes onto `results`. -/
def attempt (host : Host) (input : Str) (key : Scheme) : List Candidate :=
  if key = .caesar then
    let best := caesarBest input
    if best.score > 0 then
      [{ algo := "caesar", variant := some best.shift, text := best.text, score := best.score }]
    else []
  else
    match runDecoder host key input with
    | .ok out => [{ algo := key.name, variant := none, text := out, score := scoreText out }]
    | .error _ => []

/-- Source: `tryAll`. -/
def tryAll (host : Host) (input : Str) : List Candidate :=
  sortByScore (sortByScore (Scheme.all.flatMap (attempt host input)) ++ trySingleByteXor input)

/-! ## Two-digit hexadecimal codes, the encoding that the hex property speaks of -/

/-- Character of a hexadecimal digit value, upper case (`A-F`) when `upper`. -/
def hexDigitChar (upper : Bool) (v : Nat) : Nat :=
  if v < 10 then 48 + v else if upper then 55 + v else 87 + v

/-- Two-digit hexadecimal code of a character code below 256; `u` gives the case of each
of the two digits. -/
def hexCode (u : Bool × Bool) (c : Nat) : Str :=
  [hexDigitChar u.1 (c / 16), hexDigitChar u.2 (c % 16)]

/-- Concatenation of the two-digit codes of the characters of `t`, the digit cases taken
from `cases` (lower case once `cases` is used up). -/
def hexEncode : List (Bool × Bool) → Str → Str
  | _, [] => []
  | [], c :: t => hexCode (false, false) c ++ hexEncode [] t
  | u :: us, c :: t => hexCode u c ++ hexEncode us t

/-! # Properties -/

/-! ## Sorting by score -/

theorem sortByScore_sorted (l : List Candidate) :
    (sortByScore l).Pairwise (fun a b => b.score ≤ a.score) := by
  haveI : IsTotal Candidate (fun a b => b.score ≤ a.score) :=
    ⟨fun a b => le_total b.score a.score⟩
  haveI : IsTrans Candidate (fun a b => b.score ≤ a.score) :=
    ⟨fun _ _ _ hab hbc => le_trans hbc hab⟩
  exact List.sorted_insertionSort (fun a b : Candidate => b.score ≤ a.score) l

theorem sortByScore_perm (l : List Candidate) : (sortByScore l).Perm l :=
  List.perm_insertionSort (fun a b : Candidate => b.score ≤ a.score) l

theorem mem_sortByScore (l : List Candidate) (c : Candidate) : c ∈ sortByScore l ↔ c ∈ l :=
  (sortByScore_perm l).mem_iff

/-! ## Membership in the result of `tryAll` -/

theorem mem_tryAll (host : Host) (input : Str) (c : Candidate) :
    c ∈ tryAll host input ↔
      (∃ key ∈ Scheme.all, c ∈ attempt host input key) ∨ c ∈ trySingleByteXor input := by
  unfold tryAll
  rw [mem_sortByScore, List.mem_append, mem_sortByScore, List.mem_flatMap]

theorem Scheme.mem_all (key : Scheme) : key ∈ Scheme.all := by
  cases key <;> simp [Scheme.all]

theorem attempt_algo (host : Host) (input : Str) (key : Scheme) (c : Candidate)
    (h : c ∈ attempt host input key) : c.algo = key.name := by
  unfold attempt at h
  by_cases hk : key = .caesar
  · subst hk
    simp only [if_true] at h
    split_ifs at h
    · simp only [List.mem_singleton] at h
      subst h; rfl
    · simp at h
  · simp only [hk, if_false] at h
    split at h
    · simp only [List.mem_singleton] at h
      subst h; rfl
    · simp at h

theorem attempt_of_ok (host : Host) (input : Str) (key : Scheme) (out : Str)
    (hk : key ≠ .caesar) (h : runDecoder host key input = .ok out) :
    attempt host input key =
      [{ algo := key.name, variant := none, text := out, score := scoreText out }] := by
  unfold attempt
  simp only [hk, if_false, h]

theorem mem_xorCandidates (bytes : List Nat) (c : Candidate) :
    c ∈ xorCandidates bytes ↔
      ∃ key ∈ List.range' 1 255, 0 < scoreText (xorText bytes key) ∧
        c = xorCandidate bytes key := by
  unfold xorCandidates
  rw [List.mem_filterMap]
  constructor
  · rintro ⟨key, hk, h⟩
    refine ⟨key, hk, ?_⟩
    simp only at h
    split_ifs at h with hs
    exact ⟨hs, (Option.some.inj h).symm⟩
  · rintro ⟨key, hk, hs, rfl⟩
    refine ⟨key, hk, ?_⟩
    simp only
    rw [if_pos hs]
    rfl

theorem mem_trySingleByteXor (input : Str) (c : Candidate) (h : c ∈ trySingleByteXor input) :
    c ∈ xorCandidates (toBytes input) := by
  unfold trySingleByteXor at h
  exact (mem_sortByScore _ _).mp (List.mem_of_mem_take h)

/-- A candidate that strictly beats every other one is the first after sorting. -/
theorem sortByScore_head_of_strict_max (l : List Candidate) (x : Candidate) (hx : x ∈ l)
    (hmax : ∀ y ∈ l, y ≠ x → y.score < x.score) : (sortByScore l).head? = some x := by
  have hs := sortByScore_sorted l
  have hm : x ∈ sortByScore l := (mem_sortByScore l x).mpr hx
  cases hsl : sortByScore l with
  | nil => rw [hsl] at hm; exact absurd hm (List.not_mem_nil _)
  | cons a t =>
    rw [hsl] at hs hm
    simp only [List.head?_cons, Option.some.injEq]
    by_contra hne
    have hat : x ∈ t := by
      rcases List.mem_cons.mp hm with h | h
      · exact absurd h.symm hne
      · exact h
    have h1 : x.score ≤ a.score := (List.pairwise_cons.mp hs).1 x hat
    have ha : a ∈ l := (mem_sortByScore l a).mp (by rw [hsl]; exact List.mem_cons_self _ _)
    have h2 := hmax a ha hne
    exact absurd h1 (not_le.mpr h2)


/-! ## The input `SGVsbG8gV29ybGQ=` -/

theorem runDecoder_base64 (host : Host) (input : Str) :
    runDecoder host .base64 input = base64 input := rfl

theorem base64_hello : base64 (ofString "SGVsbG8gV29ybGQ=") = .ok (ofString "Hello World") := by
  decide

theorem score_hello : scoreText (ofString "Hello World") = 61 / 2 := by decide!

set_option maxRecDepth 100000 in
theorem xor_scores_hello : ∀ k ∈ List.range' 1 255, k ≠ 45 →
    scoreText (xorText (toBytes (ofString "SGVsbG8gV29ybGQ=")) k) < 61 / 2 := by
  decide!

theorem xor_score_45 :
    scoreText (xorText (toBytes (ofString "SGVsbG8gV29ybGQ=")) 45) =
      8828078815016029 / 281474976710656 := by
  decide!

theorem base64_candidate_mem (host : Host) :
    ({ algo := "base64", variant := none, text := ofString "Hello World",
       score := scoreText (ofString "Hello World") } : Candidate) ∈
      tryAll host (ofString "SGVsbG8gV29ybGQ=") := by
  rw [mem_tryAll]
  left
  refine ⟨.base64, Scheme.mem_all _, ?_⟩
  rw [attempt_of_ok host _ .base64 (ofString "Hello World") (by decide)
    (by rw [runDecoder_base64]; exact base64_hello)]
  exact List.mem_singleton.mpr rfl

theorem xor_of_mem_tryAll (host : Host) (input : Str) (x : Candidate)
    (hx : x ∈ tryAll host input) (ha : x.algo = "xor") : x ∈ xorCandidates (toBytes input) := by
  rcases (mem_tryAll host input x).mp hx with ⟨key, _, hk⟩ | h
  · have := attempt_algo host input key x hk
    rw [ha] at this
    cases key <;> simp [Scheme.name] at this
  · exact mem_trySingleByteXor input x h

theorem xor45_mem (host : Host) :
    xorCandidate (toBytes (ofString "SGVsbG8gV29ybGQ=")) 45 ∈
      tryAll host (ofString "SGVsbG8gV29ybGQ=") := by
  rw [mem_tryAll]
  right
  unfold trySingleByteXor
  have hmem : xorCandidate (toBytes (ofString "SGVsbG8gV29ybGQ=")) 45 ∈
      xorCandidates (toBytes (ofString "SGVsbG8gV29ybGQ=")) := by
    rw [mem_xorCandidates]
    refine ⟨45, by decide, ?_, rfl⟩
    rw [xor_score_45]; norm_num
  have hhead := sortByScore_head_of_strict_max _ _ hmem (by
    intro y hy hne
    obtain ⟨k, hk, _, rfl⟩ := (mem_xorCandidates _ _).mp hy
    have hk45 : k ≠ 45 := by
      rintro rfl
      exact hne rfl
    have := xor_scores_hello k hk hk45
    simp only [xorCandidate, xor_score_45]
    linarith)
  cases hs : sortByScore (xorCandidates (toBytes (ofString "SGVsbG8gV29ybGQ="))) with
  | nil => rw [hs] at hhead; simp at hhead
  | cons a t =>
    rw [hs] at hhead
    simp only [List.head?_cons, Option.some.injEq] at hhead
    subst hhead
    simp

/-- Counterexample to C1: on `SGVsbG8gV29ybGQ=`, whatever the browser provides, the list
holds the XOR candidate of key 45 (text `eHAAB\rzB_AI`), whose score 31.363636363636363 is above the
score 61/2 of the Base64 candidate `Hello World`; so no Base64 candidate with that text
beats every XOR candidate of the list. -/
theorem tryAll_base64_counterexample :
    ¬ ∃ host : Host, ∃ c ∈ tryAll host (ofString "SGVsbG8gV29ybGQ="),
      c.algo = "base64" ∧ c.text = ofString "Hello World" ∧
      ∀ x ∈ tryAll host (ofString "SGVsbG8gV29ybGQ="), x.algo = "xor" → x.score < c.score := by
  rintro ⟨host, c, hc, halgo, htext, hall⟩
  have hscore : c.score = 61 / 2 := by
    rcases (mem_tryAll host _ c).mp hc with ⟨key, _, hk⟩ | h
    · have hn := attempt_algo host _ key c hk
      rw [halgo] at hn
      have hkey : key = .base64 := by cases key <;> simp [Scheme.name] at hn ⊢
      subst hkey
      rw [attempt_of_ok host _ .base64 (ofString "Hello World") (by decide)
    (by rw [runDecoder_base64]; exact base64_hello)] at hk
      rw [List.mem_singleton.mp hk]
      exact score_hello
    · obtain ⟨k, _, _, rfl⟩ := (mem_xorCandidates _ _).mp (mem_trySingleByteXor _ c h)
      simp [xorCandidate] at halgo
  have h45 := hall _ (xor45_mem host) rfl
  rw [hscore] at h45
  simp only [xorCandidate, xor_score_45] at h45
  norm_num at h45

/-- Claim C1, amended: on `SGVsbG8gV29ybGQ=`, whatever the browser provides, `tryAll`
returns a list that holds a candidate with algo `base64`, text `Hello World` and score
61/2, and this score is strictly greater than the score of every candidate with algo `xor`
of the list other than the one of key 45; that one is in the list with score
31.363636363636363, the double 8828078815016029 / 2^48. -/
theorem tryAll_base64_hello (host : Host) :
    ∃ c ∈ tryAll host (ofString "SGVsbG8gV29ybGQ="),
      c.algo = "base64" ∧ c.text = ofString "Hello World" ∧ c.score = 61 / 2 ∧
      (∀ x ∈ tryAll host (ofString "SGVsbG8gV29ybGQ="), x.algo = "xor" →
        x.variant ≠ some 45 → x.score < c.score) ∧
      ∃ x ∈ tryAll host (ofString "SGVsbG8gV29ybGQ="),
        x.algo = "xor" ∧ x.variant = some 45 ∧
        x.score = 8828078815016029 / 281474976710656 := by
  refine ⟨_, base64_candidate_mem host, rfl, rfl, score_hello, ?_,
    ⟨_, xor45_mem host, rfl, rfl, xor_score_45⟩⟩
  intro x hx ha hv
  obtain ⟨k, hk, _, rfl⟩ := (mem_xorCandidates _ _).mp (xor_of_mem_tryAll host _ x hx ha)
  have hk45 : k ≠ 45 := by
    rintro rfl
    exact hv rfl
  simp only [score_hello, xorCandidate]
  exact xor_scores_hello k hk hk45

/-! ## UTF-8 round trip -/

theorem utf8DecodeFrom_lead (st : Utf8State) (b : Nat) (bs : List Nat) (h : st.bytesNeeded = 0) :
    utf8DecodeFrom st (b :: bs) = (utf8Lead b).1 ++ utf8DecodeFrom (utf8Lead b).2 bs := by
  rw [utf8DecodeFrom, if_pos h]

theorem utf8DecodeFrom_cont (st : Utf8State) (b : Nat) (bs : List Nat)
    (hn : st.bytesNeeded ≠ 0) (hlo : st.lower ≤ b) (hup : b ≤ st.upper)
    (hmore : st.bytesSeen + 1 ≠ st.bytesNeeded) :
    utf8DecodeFrom st (b :: bs) =
      utf8DecodeFrom { codePoint := st.codePoint * 64 + b % 64, bytesSeen := st.bytesSeen + 1,
                       bytesNeeded := st.bytesNeeded } bs := by
  rw [utf8DecodeFrom, if_neg hn, if_neg (by omega)]
  simp only [if_pos hmore]

theorem utf8DecodeFrom_last (st : Utf8State) (b : Nat) (bs : List Nat)
    (hn : st.bytesNeeded ≠ 0) (hlo : st.lower ≤ b) (hup : b ≤ st.upper)
    (hlast : st.bytesSeen + 1 = st.bytesNeeded) :
    utf8DecodeFrom st (b :: bs) = (st.codePoint * 64 + b % 64) :: utf8DecodeFrom {} bs := by
  rw [utf8DecodeFrom, if_neg hn, if_neg (by omega)]
  simp only [hlast, ne_eq, not_true_eq_false, if_false]

theorem utf8Lead_ascii (b : Nat) (h : b ≤ 127) : utf8Lead b = ([b], {}) := by
  simp [utf8Lead, h]

theorem utf8Lead_two (b : Nat) (h1 : 194 ≤ b) (h2 : b ≤ 223) :
    utf8Lead b = ([], { codePoint := b % 32, bytesNeeded := 1 }) := by
  unfold utf8Lead
  rw [if_neg (by omega), if_pos ⟨h1, h2⟩]

theorem utf8Lead_three (b : Nat) (h1 : 224 ≤ b) (h2 : b ≤ 239) :
    utf8Lead b = ([], { codePoint := b % 16, bytesNeeded := 2,
                        lower := if b = 224 then 160 else 128,
                        upper := if b = 237 then 159 else 191 }) := by
  unfold utf8Lead
  rw [if_neg (by omega), if_neg (by omega), if_pos ⟨h1, h2⟩]

theorem utf8Lead_four (b : Nat) (h1 : 240 ≤ b) (h2 : b ≤ 244) :
    utf8Lead b = ([], { codePoint := b % 8, bytesNeeded := 3,
                        lower := if b = 240 then 144 else 128,
                        upper := if b = 244 then 143 else 191 }) := by
  unfold utf8Lead
  rw [if_neg (by omega), if_neg (by omega), if_neg (by omega), if_pos ⟨h1, h2⟩]

theorem utf8DecodeFrom_char (c : Nat) (rest : List Nat) (h : isScalarValue c = true) :
    utf8DecodeFrom {} (utf8EncodeChar c ++ rest) = c :: utf8DecodeFrom {} rest := by
  simp only [isScalarValue, Bool.or_eq_true, Bool.and_eq_true, decide_eq_true_eq] at h
  unfold utf8EncodeChar
  split_ifs with h1 h2 h3
  · rw [List.singleton_append, utf8DecodeFrom_lead _ _ _ rfl, utf8Lead_ascii c h1]
    rfl
  · simp only [List.cons_append, List.nil_append]
    rw [utf8DecodeFrom_lead _ _ _ rfl, utf8Lead_two _ (by omega) (by omega)]
    simp only [List.nil_append]
    rw [utf8DecodeFrom_last _ _ _ (by simp) (by simp) (by simp; omega) (by simp)]
    congr 1
    simp only
    omega
  · simp only [List.cons_append, List.nil_append]
    rw [utf8DecodeFrom_lead _ _ _ rfl, utf8Lead_three _ (by omega) (by omega)]
    simp only [List.nil_append]
    rw [utf8DecodeFrom_cont _ _ _ (by simp) (by simp only []; split_ifs <;> omega)
      (by simp only []; split_ifs <;> omega) (by simp)]
    rw [utf8DecodeFrom_last _ _ _ (by simp) (by simp) (by simp; omega) (by simp)]
    congr 1
    simp only
    omega
  · simp only [List.cons_append, List.nil_append]
    rw [utf8DecodeFrom_lead _ _ _ rfl, utf8Lead_four _ (by omega) (by omega)]
    simp only [List.nil_append]
    rw [utf8DecodeFrom_cont _ _ _ (by simp) (by simp only []; split_ifs <;> omega)
      (by simp only []; split_ifs <;> omega) (by simp)]
    rw [utf8DecodeFrom_cont _ _ _ (by simp) (by simp) (by simp; omega) (by simp)]
    rw [utf8DecodeFrom_last _ _ _ (by simp) (by simp) (by simp; omega) (by simp)]
    congr 1
    simp only
    omega

theorem utf8Decode_encode (s : List Nat) (h : ∀ c ∈ s, isScalarValue c = true) :
    utf8DecodeFrom {} (utf8Encode s) = s := by
  induction s with
  | nil => simp [utf8Encode, utf8DecodeFrom]
  | cons c t ih =>
    have hc := h c (List.mem_cons_self _ _)
    have ht := ih (fun x hx => h x (List.mem_cons_of_mem _ hx))
    unfold utf8Encode at ht ⊢
    rw [List.flatMap_cons, utf8DecodeFrom_char c _ hc, ht]

theorem utf8Encode_lt (s : List Nat) (h : ∀ c ∈ s, isScalarValue c = true) :
    ∀ b ∈ utf8Encode s, b < 256 := by
  intro b hb
  unfold utf8Encode at hb
  obtain ⟨c, hc, hbc⟩ := List.mem_flatMap.mp hb
  have hs := h c hc
  simp only [isScalarValue, Bool.or_eq_true, Bool.and_eq_true, decide_eq_true_eq] at hs
  unfold utf8EncodeChar at hbc
  split_ifs at hbc <;> simp only [List.mem_cons, List.mem_singleton, List.not_mem_nil, or_false] at hbc <;> omega

/-! ## Base64 round trip -/

theorem b64Char_props : ∀ v, v < 64 →
    b64Value (b64Char v) = some v ∧ isSpace (b64Char v) = false ∧
    isAsciiSpace (b64Char v) = false ∧ b64Char v ≠ 45 ∧ b64Char v ≠ 95 ∧ b64Char v ≠ 61 := by
  decide

theorem sextetsOf_lt : ∀ (bytes : List Nat), (∀ b ∈ bytes, b < 256) → ∀ v ∈ sextetsOf bytes, v < 64
  | a :: b :: c :: rest, h, v, hv => by
    have ha := h a (by simp)
    have hb := h b (by simp)
    have hc := h c (by simp)
    simp only [sextetsOf, List.mem_cons] at hv
    rcases hv with rfl | rfl | rfl | rfl | hv
    · omega
    · omega
    · omega
    · omega
    · exact sextetsOf_lt rest (fun x hx => h x (by simp [hx])) v hv
  | [a, b], h, v, hv => by
    have ha := h a (by simp)
    have hb := h b (by simp)
    simp only [sextetsOf, List.mem_cons, List.mem_singleton, List.not_mem_nil, or_false] at hv
    rcases hv with rfl | rfl | rfl <;> omega
  | [a], h, v, hv => by
    have ha := h a (by simp)
    simp only [sextetsOf, List.mem_cons, List.mem_singleton, List.not_mem_nil, or_false] at hv
    rcases hv with rfl | rfl <;> omega
  | [], _, v, hv => by simp [sextetsOf] at hv

theorem sextetsOf_length : ∀ (bytes : List Nat),
    (sextetsOf bytes).length = (bytes.length * 4 + 2) / 3
  | a :: b :: c :: rest => by
    have := sextetsOf_length rest
    simp only [sextetsOf, List.length_cons, this]
    omega
  | [a, b] => by simp [sextetsOf]
  | [a] => by simp [sextetsOf]
  | [] => by simp [sextetsOf]

theorem b64Bytes_sextetsOf : ∀ (bytes : List Nat), (∀ b ∈ bytes, b < 256) →
    b64Bytes (sextetsOf bytes) = bytes
  | a :: b :: c :: rest, h => by
    have ha := h a (by simp)
    have hb := h b (by simp)
    have hc := h c (by simp)
    have ih := b64Bytes_sextetsOf rest (fun x hx => h x (by simp [hx]))
    simp only [sextetsOf, b64Bytes, ih]
    congr 1
    · omega
    · congr 1
      · omega
      · congr 1
        omega
  | [a, b], h => by
    have ha := h a (by simp)
    have hb := h b (by simp)
    simp only [sextetsOf, b64Bytes]
    congr 1
    · omega
    · congr 1
      omega
  | [a], h => by
    have ha := h a (by simp)
    simp only [sextetsOf, b64Bytes]
    congr 1
    omega
  | [], _ => by simp [sextetsOf, b64Bytes]

theorem stripPadding_append (body : Str) (k : Nat) (hk : k ≤ 2) (hb : ∀ c ∈ body, c ≠ 61) :
    stripPadding (body ++ List.replicate k 61) = body := by
  have hlast : ∀ x r, body.reverse = x :: r → x ≠ 61 := by
    intro x r hr
    apply hb
    have : x ∈ body.reverse := by rw [hr]; exact List.mem_cons_self _ _
    exact List.mem_reverse.mp this
  unfold stripPadding
  rw [List.reverse_append, List.reverse_replicate]
  have hk3 : k = 0 ∨ k = 1 ∨ k = 2 := by omega
  rcases hk3 with rfl | rfl | rfl
  · simp only [List.replicate_zero, List.nil_append, List.append_nil]
    cases hr : body.reverse with
    | nil => rfl
    | cons x r =>
      have := hlast x r hr
      split
      · rename_i heq; simp only [List.cons.injEq] at heq; omega
      · rename_i heq; simp only [List.cons.injEq] at heq; omega
      · rfl
  · simp only [List.replicate_one, List.singleton_append]
    cases hr : body.reverse with
    | nil =>
      have : body = [] := List.reverse_eq_nil_iff.mp hr
      subst this; rfl
    | cons x r =>
      have := hlast x r hr
      split
      · rename_i heq; simp only [List.cons.injEq] at heq; omega
      · rename_i heq
        simp only [List.cons.injEq, true_and] at heq
        rw [← heq, ← hr, List.reverse_reverse]
      · rename_i _ hno
        exact absurd rfl (hno _)
  · simp only [List.replicate, List.cons_append, List.nil_append]
    exact List.reverse_reverse _

theorem filter_eq_self_of_all (p : Nat → Bool) (s : Str) (h : ∀ c ∈ s, p c = true) :
    s.filter p = s := List.filter_eq_self.mpr h

theorem trim_eq_self (s : Str) (h : ∀ c ∈ s, isSpace c = false) : trim s = s := by
  have hd : ∀ l : Str, (∀ c ∈ l, isSpace c = false) → l.dropWhile isSpace = l := by
    intro l hl
    cases l with
    | nil => rfl
    | cons a t => simp [List.dropWhile, hl a (List.mem_cons_self _ _)]
  unfold trim
  rw [hd s h, hd s.reverse (fun c hc => h c (List.mem_reverse.mp hc)), List.reverse_reverse]

theorem stdBase64Encode_chars (bytes : List Nat) (hb : ∀ b ∈ bytes, b < 256) :
    ∀ c ∈ stdBase64Encode bytes,
      isSpace c = false ∧ isAsciiSpace c = false ∧ c ≠ 45 ∧ c ≠ 95 := by
  intro c hc
  unfold stdBase64Encode at hc
  rcases List.mem_append.mp hc with h | h
  · obtain ⟨v, hv, rfl⟩ := List.mem_map.mp h
    have := b64Char_props v (sextetsOf_lt bytes hb v hv)
    exact ⟨this.2.1, this.2.2.1, this.2.2.2.1, this.2.2.2.2.1⟩
  · have : c = 61 := (List.mem_replicate.mp h).2
    subst this
    decide

theorem stdBase64Encode_length (bytes : List Nat) : (stdBase64Encode bytes).length % 4 = 0 := by
  unfold stdBase64Encode
  rw [List.length_append, List.length_map, sextetsOf_length, List.length_replicate]
  obtain ⟨q, hq⟩ : ∃ q, bytes.length = 3 * q ∨ bytes.length = 3 * q + 1 ∨
      bytes.length = 3 * q + 2 := ⟨bytes.length / 3, by omega⟩
  rcases hq with h | h | h <;> rw [h] <;> omega

theorem atob_stdBase64Encode (bytes : List Nat) (hb : ∀ b ∈ bytes, b < 256) :
    atob (stdBase64Encode bytes) = some bytes := by
  have hchars := stdBase64Encode_chars bytes hb
  have hlen := stdBase64Encode_length bytes
  have hsx := sextetsOf_lt bytes hb
  unfold atob
  rw [filter_eq_self_of_all _ _ (fun c hc => by simp [(hchars c hc).2.1])]
  simp only [hlen, if_true]
  have hstrip : stripPadding (stdBase64Encode bytes) = (sextetsOf bytes).map b64Char := by
    unfold stdBase64Encode
    apply stripPadding_append _ _ (by omega)
    intro c hc
    obtain ⟨v, hv, rfl⟩ := List.mem_map.mp hc
    exact (b64Char_props v (hsx v hv)).2.2.2.2.2
  rw [hstrip]
  have hl1 : ¬ ((sextetsOf bytes).map b64Char).length % 4 = 1 := by
    rw [List.length_map, sextetsOf_length]
    obtain ⟨q, hq⟩ : ∃ q, bytes.length = 3 * q ∨ bytes.length = 3 * q + 1 ∨
        bytes.length = 3 * q + 2 := ⟨bytes.length / 3, by omega⟩
    rcases hq with h | h | h <;> rw [h] <;> omega
  rw [if_neg hl1]
  have hall : (((sextetsOf bytes).map b64Char).all fun c => (b64Value c).isSome) = true := by
    rw [List.all_eq_true]
    intro c hc
    obtain ⟨v, hv, rfl⟩ := List.mem_map.mp hc
    rw [(b64Char_props v (hsx v hv)).1]
    rfl
  rw [if_pos hall]
  have hmap : ((sextetsOf bytes).map b64Char).map (fun c => (b64Value c).getD 0) =
      sextetsOf bytes := by
    rw [List.map_map]
    conv_rhs => rw [← List.map_id (sextetsOf bytes)]
    apply List.map_congr_left
    intro v hv
    simp [(b64Char_props v (hsx v hv)).1]
  rw [hmap, b64Bytes_sextetsOf bytes hb]

theorem base64_stdBase64Encode (bytes : List Nat) (hb : ∀ b ∈ bytes, b < 256) :
    base64 (stdBase64Encode bytes) = .ok (utf8Decode bytes) := by
  have hchars := stdBase64Encode_chars bytes hb
  unfold base64
  have h1 : trim (stdBase64Encode bytes) = stdBase64Encode bytes :=
    trim_eq_self _ (fun c hc => (hchars c hc).1)
  have h2 : removeSpaces (stdBase64Encode bytes) = stdBase64Encode bytes :=
    filter_eq_self_of_all _ _ (fun c hc => by simp [(hchars c hc).1])
  have h3 : urlSafeToStd (stdBase64Encode bytes) = stdBase64Encode bytes := by
    unfold urlSafeToStd
    conv_rhs => rw [← List.map_id (stdBase64Encode bytes)]
    apply List.map_congr_left
    intro c hc
    simp [(hchars c hc).2.2.1, (hchars c hc).2.2.2]
  have h4 : padTo4 (stdBase64Encode bytes) = stdBase64Encode bytes := by
    unfold padTo4
    rw [stdBase64Encode_length]
    simp
  simp only [h1, h2, h3, h4, atob_stdBase64Encode bytes hb]

/-- Counterexample to C2: the text made of the one scalar value U+FEFF has the UTF-8 bytes
EF BB BF and the Base64 encoding `77u/`; `decoders.base64` returns the empty string for
it, because `TextDecoder` drops a leading byte order mark. -/
theorem base64_roundtrip_counterexample :
    isScalarValue 65279 = true ∧
    stdBase64Encode (utf8Encode [65279]) = ofString "77u/" ∧
    base64 (stdBase64Encode (utf8Encode [65279])) = .ok [] ∧
    base64 (stdBase64Encode (utf8Encode [65279])) ≠ .ok (toUtf16 [65279]) := by
  decide

theorem stripBOM_eq_self (s : List Nat) (h : s.head? ≠ some 65279) : stripBOM s = s := by
  unfold stripBOM
  split
  · simp at h
  · rfl

/-- Claim C2, amended: for every text `s`, a sequence of Unicode scalar values, that does
not begin with U+FEFF, `decoders.base64` applied to the standard padded Base64 encoding of
the UTF-8 bytes of `s` succeeds and returns exactly `s` (as UTF-16 code units). -/
theorem base64_roundtrip (s : List Nat) (hs : ∀ c ∈ s, isScalarValue c = true)
    (hbom : s.head? ≠ some 65279) :
    base64 (stdBase64Encode (utf8Encode s)) = .ok (toUtf16 s) := by
  rw [base64_stdBase64Encode _ (utf8Encode_lt s hs)]
  unfold utf8Decode
  rw [utf8Decode_encode s hs, stripBOM_eq_self s hbom]

/-- Witness of the amended C2 at the text `hé€ 😀` (one to four UTF-8 bytes a character). -/
theorem base64_roundtrip_witness :
    base64 (stdBase64Encode (utf8Encode [104, 233, 8364, 32, 128512])) =
      .ok (toUtf16 [104, 233, 8364, 32, 128512]) :=
  base64_roundtrip [104, 233, 8364, 32, 128512] (by decide) (by decide)

/-- Claim C3: `trySingleByteXor` returns at most 8 candidates, and their scores do not
increase along the list: each candidate has a score at least that of every later one, in
particular of the next one. -/
theorem trySingleByteXor_length_sorted (input : Str) :
    (trySingleByteXor input).length ≤ 8 ∧
    (trySingleByteXor input).Pairwise (fun a b => a.score ≥ b.score) ∧
    ∀ i a b, (trySingleByteXor input)[i]? = some a → (trySingleByteXor input)[i + 1]? = some b →
      a.score ≥ b.score := by
  have hs : (trySingleByteXor input).Pairwise (fun a b => a.score ≥ b.score) := by
    unfold trySingleByteXor
    exact (sortByScore_sorted _).sublist (List.take_sublist 8 _)
  refine ⟨?_, hs, ?_⟩
  · unfold trySingleByteXor
    simp [List.length_take]
  · intro i a b ha hb
    rw [List.pairwise_iff_getElem] at hs
    obtain ⟨hi, rfl⟩ := List.getElem?_eq_some_iff.mp ha
    obtain ⟨hj, rfl⟩ := List.getElem?_eq_some_iff.mp hb
    exact hs i (i + 1) hi hj (Nat.lt_succ_self i)

/-! ## Hex -/

theorem hexPairs_spec : ∀ (n : Nat) (s : Str), s.length = 2 * n →
    (hexPairs s).length = n ∧
    ∀ i, i < n → (hexPairs s).getD i 0 = hexVal (s.getD (2 * i) 0) * 16 + hexVal (s.getD (2 * i + 1) 0)
  | 0, s, h => by
    have : s = [] := List.length_eq_zero.mp (by omega)
    subst this
    simp [hexPairs]
  | n + 1, s, h => by
    match s, h with
    | a :: b :: rest, h =>
      have hr : rest.length = 2 * n := by simp only [List.length_cons] at h; omega
      obtain ⟨h1, h2⟩ := hexPairs_spec n rest hr
      refine ⟨by simp [hexPairs, h1], ?_⟩
      intro i hi
      cases i with
      | zero => simp [hexPairs]
      | succ j =>
        have := h2 j (by omega)
        have e1 : 2 * (j + 1) = (2 * j + 1) + 1 := by ring
        have e2 : 2 * (j + 1) + 1 = (2 * j + 1 + 1) + 1 := by ring
        rw [e2, e1]
        simp only [hexPairs, List.getD_cons_succ]
        exact this
    | [a], h =>
      simp only [List.length_singleton] at h
      omega
    | [], h =>
      simp only [List.length_nil] at h
      omega

/-- Counterexample to C6: `g12` has odd length and holds the non-hex character `g`, yet
`decoders.hex` returns the one-character string of code 0x12 instead of failing. -/
theorem hex_malformed_counterexample :
    (ofString "g12").length % 2 = 1 ∧ (∃ c ∈ ofString "g12", isHexDigit c = false) ∧
    hex (ofString "g12") = .ok [18] ∧ hex (ofString "g12") ≠ .error "Invalid hex" := by
  decide

/-- Claim C6, amended: `decoders.hex` fails with `Invalid hex` on every input that holds
fewer than two hexadecimal digits; other characters are stripped, not rejected, so that an
input whose hexadecimal digits are `2 * n` in number, `n ≥ 1`, succeeds with the UTF-8
decoding of the `n` bytes that the digit pairs denote. -/
theorem hex_strips_then_decodes (input : Str) :
    ((input.filter isHexDigit).length < 2 → hex input = .error "Invalid hex") ∧
    hex input = hex (input.filter isHexDigit) ∧
    ∀ n, 1 ≤ n → (input.filter isHexDigit).length = 2 * n →
      ∃ bytes : List Nat, hex input = .ok (utf8Decode bytes) ∧ bytes.length = n ∧
        ∀ i, i < n → bytes.getD i 0 =
          hexVal ((input.filter isHexDigit).getD (2 * i) 0) * 16 +
          hexVal ((input.filter isHexDigit).getD (2 * i + 1) 0) := by
  refine ⟨?_, ?_, ?_⟩
  · intro h
    simp [hex, h]
  · simp [hex, List.filter_filter]
  · intro n hn hlen
    obtain ⟨h1, h2⟩ := hexPairs_spec n _ hlen
    refine ⟨hexPairs (input.filter isHexDigit), ?_, h1, h2⟩
    have : ¬ (input.filter isHexDigit).length < 2 := by omega
    simp [hex, this]

/-- Witness of the amended C6: `zz1` holds one hexadecimal digit and fails; `4 8:6 9` holds
four and decodes to two bytes. -/
theorem hex_strips_then_decodes_witness :
    hex (ofString "zz1") = .error "Invalid hex" ∧
    ∃ bytes : List Nat, hex (ofString "4 8:6 9") = .ok (utf8Decode bytes) ∧ bytes.length = 2 ∧
      ∀ i, i < 2 → bytes.getD i 0 =
        hexVal (((ofString "4 8:6 9").filter isHexDigit).getD (2 * i) 0) * 16 +
        hexVal (((ofString "4 8:6 9").filter isHexDigit).getD (2 * i + 1) 0) :=
  ⟨(hex_strips_then_decodes (ofString "zz1")).1 (by decide),
   (hex_strips_then_decodes (ofString "4 8:6 9")).2.2 2 (by decide) (by decide)⟩

/-! ## Letter arithmetic -/

theorem isLetter_iff (c : Nat) : isLetter c = true ↔ (65 ≤ c ∧ c ≤ 90) ∨ (97 ≤ c ∧ c ≤ 122) := by
  simp [isLetter]

theorem fromCharCode_jsRem (x : Int) (b : Nat) (hx : 0 ≤ x) (hb : b ≤ 97) :
    fromCharCode (jsRem x 26 + (b : Int)) = x.toNat % 26 + b := by
  unfold fromCharCode jsRem
  rw [Int.tmod_eq_emod hx (by omega)]
  omega

theorem letterBase_cases (c : Nat) (h : isLetter c = true) :
    (letterBase c = 65 ∧ 65 ≤ c ∧ c ≤ 90) ∨ (letterBase c = 97 ∧ 97 ≤ c ∧ c ≤ 122) := by
  rw [isLetter_iff] at h
  unfold letterBase
  split_ifs <;> omega

theorem rot13Char_eq (c : Nat) (h : isLetter c = true) :
    rot13Char c = (c - letterBase c + 13) % 26 + letterBase c := by
  have hb := letterBase_cases c h
  simp only [rot13Char]
  rw [fromCharCode_jsRem _ _ (by omega) (by omega)]
  omega

theorem atbashChar_eq (c : Nat) (h : isLetter c = true) :
    atbashChar c = letterBase c + (25 - letterOffset c) := by
  have hb := letterBase_cases c h
  simp only [atbashChar, fromCharCode, letterOffset]
  omega

theorem caesarChar_eq (s : Int) (c : Nat) (h : isLetter c = true) (h0 : 0 ≤ s) (h26 : s ≤ 26) :
    caesarChar s c = (c - letterBase c + 26 - s.toNat) % 26 + letterBase c := by
  have hb := letterBase_cases c h
  simp only [caesarChar]
  rw [fromCharCode_jsRem _ _ (by omega) (by omega)]
  omega

theorem replaceLetters_id (f : Nat → Nat) (t : Str)
    (hf : ∀ c, isLetter c = true → f c = c) : replaceLetters f t = t := by
  unfold replaceLetters
  conv_rhs => rw [← List.map_id t]
  apply List.map_congr_left
  intro c _
  by_cases h : isLetter c = true
  · simp [h, hf c h]
  · simp [h]

theorem replaceLetters_comp (f g : Nat → Nat) (t : Str)
    (hg : ∀ c, isLetter c = true → isLetter (g c) = true) :
    replaceLetters f (replaceLetters g t) = replaceLetters (fun c => f (g c)) t := by
  unfold replaceLetters
  rw [List.map_map]
  apply List.map_congr_left
  intro c _
  by_cases h : isLetter c = true
  · simp [h, hg c h]
  · simp [h]

/-- Claim C8: `decoders.rot13` is an involution on every string. -/
theorem rot13_involution (t : Str) : rot13 (rot13 t) = t := by
  unfold rot13
  rw [replaceLetters_comp]
  · apply replaceLetters_id
    intro c h
    have hb := letterBase_cases c h
    have h1 := rot13Char_eq c h
    have h2 : isLetter (rot13Char c) = true := by rw [isLetter_iff]; omega
    have hb2 := letterBase_cases _ h2
    rw [rot13Char_eq _ h2]
    omega
  · intro c h
    have hb := letterBase_cases c h
    have h1 := rot13Char_eq c h
    rw [isLetter_iff]; omega

/-- Claim C9: `decoders.atbash` is an involution on every string, and it replaces each
letter of offset `o` by the letter of the same case of offset `25 - o`, leaving every
other code unit as it is. -/
theorem atbash_involution_mirror (t : Str) :
    atbash (atbash t) = t ∧
    atbash t = t.map (fun c => if isLetter c then letterBase c + (25 - letterOffset c) else c) ∧
    ∀ c, isLetter c = true →
      isLetter (atbashChar c) = true ∧ letterBase (atbashChar c) = letterBase c ∧
      letterOffset (atbashChar c) = 25 - letterOffset c := by
  have key : ∀ c, isLetter c = true →
      isLetter (atbashChar c) = true ∧ letterBase (atbashChar c) = letterBase c ∧
      letterOffset (atbashChar c) = 25 - letterOffset c := by
    intro c h
    have hb := letterBase_cases c h
    have h1 := atbashChar_eq c h
    have h2 : isLetter (atbashChar c) = true := by
      rw [isLetter_iff]; unfold letterOffset at h1; omega
    have hb2 := letterBase_cases _ h2
    refine ⟨h2, ?_, ?_⟩ <;> unfold letterOffset at * <;> omega
  refine ⟨?_, ?_, key⟩
  · unfold atbash
    rw [replaceLetters_comp _ _ _ (fun c h => (key c h).1)]
    apply replaceLetters_id
    intro c h
    obtain ⟨h2, h3, h4⟩ := key c h
    have hb := letterBase_cases c h
    rw [atbashChar_eq _ h2, h3, h4]
    unfold letterOffset; omega
  · unfold atbash replaceLetters
    apply List.map_congr_left
    intro c _
    by_cases h : isLetter c = true
    · simp [h, atbashChar_eq c h]
    · simp [h]

/-- Claim C10: `decoders.reverse` is an involution on every string, taken as a sequence of
UTF-16 code units. -/
theorem reverse_involution (t : Str) : reverse (reverse t) = t := by
  unfold reverse
  exact List.reverse_reverse t

/-- Claim C4: for every string and every integer shift `k` from 0 to 26, decoding with
shift `k` and then with shift `26 - k` gives the string back, and shift 0 is the identity. -/
theorem caesar_group (t : Str) (k : Int) (h0 : 0 ≤ k) (h26 : k ≤ 26) :
    caesar (caesar t k) (26 - k) = t ∧ caesar t 0 = t := by
  constructor
  · unfold caesar
    have hg : ∀ c, isLetter c = true → isLetter (caesarChar k c) = true := by
      intro c h
      have hb := letterBase_cases c h
      have h1 := caesarChar_eq k c h h0 h26
      rw [isLetter_iff]; omega
    rw [replaceLetters_comp _ _ _ hg]
    apply replaceLetters_id
    intro c h
    have hb := letterBase_cases c h
    have h1 := caesarChar_eq k c h h0 h26
    have h2 := hg c h
    have hb2 := letterBase_cases _ h2
    rw [caesarChar_eq _ _ h2 (by omega) (by omega)]
    omega
  · unfold caesar
    apply replaceLetters_id
    intro c h
    have hb := letterBase_cases c h
    rw [caesarChar_eq 0 c h (by omega) (by omega)]
    omega

/-- Witness of C4 at the string `Hello, World!` and the shift 3. -/
theorem caesar_group_witness :
    caesar (caesar (ofString "Hello, World!") 3) (26 - 3) = ofString "Hello, World!" ∧
    caesar (ofString "Hello, World!") 0 = ofString "Hello, World!" :=
  caesar_group (ofString "Hello, World!") 3 (by decide) (by decide)

/-! ## Vigenère -/

theorem charAt_mem (s : Str) (i : Nat) (h : i < s.length) : charAt s i ∈ s := by
  unfold charAt
  rw [List.getD_eq_getElem _ _ h]
  exact List.getElem_mem h

theorem vigenereChar_spec (cleanKey : Str) (ki c : Nat)
    (hk : isLetter (charAt cleanKey (ki % cleanKey.length)) = true) (h : isLetter c = true) :
    isLetter (vigenereChar cleanKey ki c) = true ∧
    letterBase (vigenereChar cleanKey ki c) = letterBase c ∧
    (letterOffset (vigenereChar cleanKey ki c) : Int) =
      ((letterOffset c : Int) - (letterOffset (charAt cleanKey (ki % cleanKey.length)) : Int)) % 26 := by
  have hb := letterBase_cases c h
  have hkb := letterBase_cases _ hk
  have hs : jsRem ((charAt cleanKey (ki % cleanKey.length) : Int) -
      (letterBase (charAt cleanKey (ki % cleanKey.length)) : Int)) 26 =
      (letterOffset (charAt cleanKey (ki % cleanKey.length)) : Int) := by
    unfold jsRem letterOffset
    rw [Int.tmod_eq_emod (by omega) (by omega)]
    omega
  have hv : vigenereChar cleanKey ki c =
      (c - letterBase c + 26 - letterOffset (charAt cleanKey (ki % cleanKey.length))) % 26
        + letterBase c := by
    simp only [vigenereChar]
    rw [hs, fromCharCode_jsRem _ _ (by unfold letterOffset; omega) (by omega)]
    unfold letterOffset; omega
  have hl : isLetter (vigenereChar cleanKey ki c) = true := by
    rw [isLetter_iff]; omega
  have hb2 := letterBase_cases _ hl
  refine ⟨hl, by omega, ?_⟩
  unfold letterOffset at *
  omega

theorem vigenereLoop_spec (cleanKey : Str) (hne : cleanKey ≠ [])
    (hall : ∀ c ∈ cleanKey, isLetter c = true) (input : Str) :
    ∀ ki, (vigenereLoop cleanKey ki input).length = input.length ∧
      ∀ p c, input[p]? = some c →
        (isLetter c = false → (vigenereLoop cleanKey ki input)[p]? = some c) ∧
        (isLetter c = true → ∃ d, (vigenereLoop cleanKey ki input)[p]? = some d ∧
          isLetter d = true ∧ letterBase d = letterBase c ∧
          (letterOffset d : Int) = ((letterOffset c : Int) -
            (letterOffset (charAt cleanKey
              ((ki + countIn isLetter (input.take p)) % cleanKey.length)) : Int)) % 26) := by
  have hpos : 0 < cleanKey.length := List.length_pos.mpr hne
  induction input with
  | nil => intro ki; simp [vigenereLoop]
  | cons a rest ih =>
    intro ki
    by_cases ha : isLetter a = true
    · obtain ⟨ihl, ihp⟩ := ih (ki + 1)
      simp only [vigenereLoop, ha, if_true, List.length_cons, ihl, true_and]
      intro p c hp
      cases p with
      | zero =>
        simp only [List.getElem?_cons_zero, Option.some.injEq] at hp
        subst hp
        refine ⟨fun hf => by simp [ha] at hf, fun _ => ?_⟩
        have hk := hall _ (charAt_mem cleanKey (ki % cleanKey.length) (Nat.mod_lt _ hpos))
        refine ⟨vigenereChar cleanKey ki a, by simp, ?_⟩
        simpa [countIn] using vigenereChar_spec cleanKey ki a hk ha
      | succ q =>
        simp only [List.getElem?_cons_succ] at hp ⊢
        have := ihp q c hp
        have hcount : ki + countIn isLetter ((a :: rest).take (q + 1)) =
            ki + 1 + countIn isLetter (rest.take q) := by
          simp [countIn, List.filter_cons, ha]; omega
        rw [hcount]
        exact this
    · have ha2 : isLetter a = false := by simpa using ha
      obtain ⟨ihl, ihp⟩ := ih ki
      simp only [vigenereLoop, ha2, Bool.false_eq_true, if_false, List.length_cons, ihl, true_and]
      intro p c hp
      cases p with
      | zero =>
        simp only [List.getElem?_cons_zero, Option.some.injEq] at hp
        subst hp
        exact ⟨fun _ => by simp, fun ht => by simp [ha2] at ht⟩
      | succ q =>
        simp only [List.getElem?_cons_succ] at hp ⊢
        have hcount : countIn isLetter ((a :: rest).take (q + 1)) =
            countIn isLetter (rest.take q) := by
          simp [countIn, List.filter_cons, ha2]
        rw [hcount]
        exact ihp q c hp

/-- Claim C7: `vigenereDecrypt` throws exactly when the key has no letter `A-Z`/`a-z` (the
empty key included), and returns a string exactly when the key has a letter, whatever the
input. -/
theorem vigenereDecrypt_fails_iff (input key : Str) :
    ((∃ msg, vigenereDecrypt input key = .error msg) ↔ ∀ c ∈ key, isLetter c = false) ∧
    ((∃ out, vigenereDecrypt input key = .ok out) ↔ ∃ c ∈ key, isLetter c = true) := by
  unfold vigenereDecrypt
  by_cases hk : key = []
  · subst hk; simp
  · by_cases hc : key.filter isLetter = []
    · have h1 : ∀ c ∈ key, isLetter c = false := by
        intro c hm
        by_contra hcon
        have : c ∈ key.filter isLetter := List.mem_filter.mpr ⟨hm, by simpa using hcon⟩
        rw [hc] at this
        exact List.not_mem_nil _ this
      simp only [hk, if_false, hc, if_true]
      constructor
      · simp; exact h1
      · simp
        intro c hm
        exact h1 c hm
    · have h1 : ∃ c ∈ key, isLetter c = true := by
        obtain ⟨c, hcm⟩ := List.exists_mem_of_ne_nil _ hc
        exact ⟨c, (List.mem_filter.mp hcm).1, (List.mem_filter.mp hcm).2⟩
      simp only [hk, if_false, hc]
      constructor
      · simp
        obtain ⟨c, hm, hl⟩ := h1
        exact ⟨c, hm, hl⟩
      · simp
        exact h1

/-- Claim C5: for a key with at least one letter `vigenereDecrypt` returns a string of the
length of the input in which every non-letter is unchanged and the letter that is the
`i`-th letter of the input (from 0) is replaced by the letter of the same case whose offset
is (its offset minus the offset of letter `i mod n` of the key without its non-letters)
mod 26, `n` being the number of letters of the key; `Lxfopvefrnhr` under `lemon` gives
`Attackatdawn`. -/
theorem vigenereDecrypt_correct (input key : Str) (hkey : ∃ c ∈ key, isLetter c = true) :
    (∃ out, vigenereDecrypt input key = .ok out ∧ out.length = input.length ∧
      ∀ p c, input[p]? = some c →
        (isLetter c = false → out[p]? = some c) ∧
        (isLetter c = true → ∃ d, out[p]? = some d ∧
          isLetter d = true ∧ (d ≤ 90 ↔ c ≤ 90) ∧
          (letterOffset d : Int) = ((letterOffset c : Int) -
            (letterOffset (charAt (key.filter isLetter)
              (countIn isLetter (input.take p) % countIn isLetter key)) : Int)) % 26)) ∧
    vigenereDecrypt (ofString "Lxfopvefrnhr") (ofString "lemon") = .ok (ofString "Attackatdawn") := by
  refine ⟨?_, by decide⟩
  obtain ⟨k, hkm, hkl⟩ := hkey
  have hne : key ≠ [] := List.ne_nil_of_mem hkm
  have hcne : key.filter isLetter ≠ [] :=
    List.ne_nil_of_mem (List.mem_filter.mpr ⟨hkm, hkl⟩)
  have hall : ∀ c ∈ key.filter isLetter, isLetter c = true :=
    fun c hc => (List.mem_filter.mp hc).2
  obtain ⟨hlen, hpt⟩ := vigenereLoop_spec (key.filter isLetter) hcne hall input 0
  refine ⟨vigenereLoop (key.filter isLetter) 0 input, ?_, hlen, ?_⟩
  · simp [vigenereDecrypt, hne, hcne]
  · intro p c hp
    obtain ⟨h1, h2⟩ := hpt p c hp
    refine ⟨h1, fun hc => ?_⟩
    obtain ⟨d, hd, hdl, hdb, hdo⟩ := h2 hc
    refine ⟨d, hd, hdl, ?_, ?_⟩
    · have hb := letterBase_cases c hc
      have hb2 := letterBase_cases d hdl
      omega
    · simpa [countIn] using hdo

/-- Witness of C5 at the input `Hi, you` and the key `k-Ey`. -/
theorem vigenereDecrypt_correct_witness :
    (∃ out, vigenereDecrypt (ofString "Hi, you") (ofString "k-Ey") = .ok out ∧
      out.length = (ofString "Hi, you").length ∧
      ∀ p c, (ofString "Hi, you")[p]? = some c →
        (isLetter c = false → out[p]? = some c) ∧
        (isLetter c = true → ∃ d, out[p]? = some d ∧
          isLetter d = true ∧ (d ≤ 90 ↔ c ≤ 90) ∧
          (letterOffset d : Int) = ((letterOffset c : Int) -
            (letterOffset (charAt ((ofString "k-Ey").filter isLetter)
              (countIn isLetter ((ofString "Hi, you").take p) %
                countIn isLetter (ofString "k-Ey"))) : Int)) % 26)) ∧
    vigenereDecrypt (ofString "Lxfopvefrnhr") (ofString "lemon") = .ok (ofString "Attackatdawn") :=
  vigenereDecrypt_correct (ofString "Hi, you") (ofString "k-Ey") ⟨107, by decide, by decide⟩

/-! ## Hex decoding of ASCII text -/

theorem hexDigitChar_props : ∀ u v, v < 16 →
    isHexDigit (hexDigitChar u v) = true ∧ hexVal (hexDigitChar u v) = v := by
  decide

theorem utf8DecodeFrom_ascii_list (t : List Nat) (h : ∀ c ∈ t, c < 128) :
    utf8DecodeFrom {} t = t := by
  induction t with
  | nil => simp [utf8DecodeFrom]
  | cons c r ih =>
    have hc := h c (List.mem_cons_self _ _)
    rw [utf8DecodeFrom_lead _ _ _ rfl, utf8Lead_ascii c (by omega)]
    simp only [List.singleton_append]
    rw [ih (fun x hx => h x (List.mem_cons_of_mem _ hx))]

theorem toUtf16_bmp (t : List Nat) (h : ∀ c ∈ t, c < 65536) : toUtf16 t = t := by
  unfold toUtf16
  induction t with
  | nil => rfl
  | cons c r ih =>
    have := h c (List.mem_cons_self _ _)
    rw [List.flatMap_cons, ih (fun x hx => h x (List.mem_cons_of_mem _ hx)), if_pos this]
    rfl

theorem utf8Decode_ascii (t : List Nat) (h : ∀ c ∈ t, c < 128) : utf8Decode t = t := by
  have h2 : stripBOM t = t := by
    apply stripBOM_eq_self
    cases t with
    | nil => simp
    | cons c r =>
      have := h c (List.mem_cons_self _ _)
      simp only [List.head?_cons, ne_eq, Option.some.injEq]
      omega
  unfold utf8Decode
  rw [utf8DecodeFrom_ascii_list t h, h2,
    toUtf16_bmp t (fun c hc => by have := h c hc; omega)]

theorem hexEncode_spec : ∀ (cases : List (Bool × Bool)) (t : Str), (∀ c ∈ t, c < 128) →
    (hexEncode cases t).filter isHexDigit = hexEncode cases t ∧
    (hexEncode cases t).length = 2 * t.length ∧ hexPairs (hexEncode cases t) = t
  | _, [], _ => by simp [hexEncode, hexPairs]
  | [], c :: t, h => by
    have hc := h c (List.mem_cons_self _ _)
    obtain ⟨i1, i2, i3⟩ := hexEncode_spec [] t (fun x hx => h x (List.mem_cons_of_mem _ hx))
    have p1 := hexDigitChar_props false (c / 16) (by omega)
    have p2 := hexDigitChar_props false (c % 16) (by omega)
    simp only [hexEncode, hexCode, List.cons_append, List.nil_append, List.filter_cons, p1.1,
      p2.1, if_true, i1, List.length_cons, i2, hexPairs, i3, p1.2, p2.2, true_and]
    refine ⟨by omega, ?_⟩
    congr 1
    omega
  | u :: us, c :: t, h => by
    have hc := h c (List.mem_cons_self _ _)
    obtain ⟨i1, i2, i3⟩ := hexEncode_spec us t (fun x hx => h x (List.mem_cons_of_mem _ hx))
    have p1 := hexDigitChar_props u.1 (c / 16) (by omega)
    have p2 := hexDigitChar_props u.2 (c % 16) (by omega)
    simp only [hexEncode, hexCode, List.cons_append, List.nil_append, List.filter_cons, p1.1,
      p2.1, if_true, i1, List.length_cons, i2, hexPairs, i3, p1.2, p2.2, true_and]
    refine ⟨by omega, ?_⟩
    congr 1
    omega

/-- Claim C11: for every non-empty string `t` of ASCII characters (codes 0 to 127),
`decoders.hex` applied to the concatenation of the two-digit hexadecimal codes of the
characters of `t`, each digit in either case, returns `t`; `48656c6c6f` gives `Hello`. -/
theorem hex_decodes_ascii (cases : List (Bool × Bool)) (t : Str) (hne : t ≠ [])
    (hascii : ∀ c ∈ t, c < 128) :
    hex (hexEncode cases t) = .ok t ∧
    hex (ofString "48656c6c6f") = .ok (ofString "Hello") := by
  refine ⟨?_, by decide⟩
  obtain ⟨h1, h2, h3⟩ := hexEncode_spec cases t hascii
  have hlen : 0 < t.length := List.length_pos.mpr hne
  unfold hex
  simp only [h1, h2, h3]
  rw [if_neg (by omega), utf8Decode_ascii t hascii]

/-- Witness of C11 at the text `Jo~l` with mixed digit cases (`4A6F7E6c`). -/
theorem hex_decodes_ascii_witness :
    hex (hexEncode [(true, true), (false, true), (true, true)] (ofString "Jo~l")) =
      .ok (ofString "Jo~l") ∧
    hex (ofString "48656c6c6f") = .ok (ofString "Hello") :=
  hex_decodes_ascii [(true, true), (false, true), (true, true)] (ofString "Jo~l")
    (by decide) (by decide)

/-! ## Caesar with an arbitrary integer shift -/

theorem caesarChar_of_le (s : Int) (c : Nat) (h : isLetter c = true) (h26 : s ≤ 26) :
    isLetter (caesarChar s c) = true ∧ letterBase (caesarChar s c) = letterBase c ∧
    (letterOffset (caesarChar s c) : Int) = ((letterOffset c : Int) - s) % 26 := by
  have hb := letterBase_cases c h
  have hx : (0 : Int) ≤ (c : Int) - (letterBase c : Int) - s + 26 := by omega
  have hv : caesarChar s c =
      ((c : Int) - (letterBase c : Int) - s + 26).toNat % 26 + letterBase c := by
    simp only [caesarChar]
    rw [fromCharCode_jsRem _ _ hx (by omega)]
  have hl : isLetter (caesarChar s c) = true := by
    rw [isLetter_iff]; omega
  have hb2 := letterBase_cases _ hl
  refine ⟨hl, by omega, ?_⟩
  unfold letterOffset
  omega

/-- For a shift of at most 26, negative shifts included, `decoders.caesar` keeps the length
and the non-letters and moves each letter of offset `o` to the letter of the same case of
offset `(o - shift) mod 26`. -/
theorem caesar_spec_of_le (input : Str) (shift : Int) (h26 : shift ≤ 26) :
    (caesar input shift).length = input.length ∧
    ∀ (p c : Nat), input[p]? = some c →
      (isLetter c = false → (caesar input shift)[p]? = some c) ∧
      (isLetter c = true → ∃ d, (caesar input shift)[p]? = some d ∧ isLetter d = true ∧
        (d ≤ 90 ↔ c ≤ 90) ∧ (letterOffset d : Int) = ((letterOffset c : Int) - shift) % 26) := by
  unfold caesar replaceLetters
  refine ⟨by simp, ?_⟩
  intro p c hp
  have hget : (List.map (fun c => if isLetter c = true then caesarChar shift c else c) input)[p]? =
      some (if isLetter c = true then caesarChar shift c else c) := by
    rw [List.getElem?_map, hp]
    rfl
  refine ⟨fun hf => by rw [hget]; simp [hf], fun ht => ?_⟩
  obtain ⟨h1, h2, h3⟩ := caesarChar_of_le shift c ht h26
  refine ⟨caesarChar shift c, by rw [hget]; simp [ht], h1, ?_, h3⟩
  have hb := letterBase_cases c ht
  have hb2 := letterBase_cases _ h1
  omega

/-- Claim C13 at a failing input: with shift 27 the letter `a` (offset 0) becomes the code
unit 96, which is no letter, where offset `(0 - 27) mod 26 = 25` is the letter `z`; the
`+ 26` of the callback makes the dividend non-negative only for shifts up to 26. -/
theorem caesar_shift_27_escapes :
    caesar (ofString "a") 27 = [96] ∧ isLetter 96 = false ∧
    ((letterOffset 97 : Int) - 27) % 26 = 25 ∧ caesar (ofString "a") 27 ≠ ofString "z" := by
  decide

/-! ## The scorer -/

/-! ## Double rounding -/

theorem roundHalfEven_spec (num den : Nat) (hd : 0 < den) :
    2 * num ≤ 2 * (roundHalfEven num den * den) + den ∧
    2 * (roundHalfEven num den * den) ≤ 2 * num + den := by
  have h1 := Nat.div_add_mod num den
  have h2 := Nat.mod_lt num hd
  have h3 : num / den * den = den * (num / den) := Nat.mul_comm _ _
  unfold roundHalfEven
  split_ifs with h
  · rw [Nat.add_mul, h3]
    rcases h with h | h <;> omega
  · rw [h3]
    have : ¬ den < 2 * (num % den) := fun hc => h (Or.inl hc)
    omega

/-- Scaling lemma: an integer within a half of `a / b`, where `a / b` is at least 2^52 and
is `x` scaled by `p / q`, is within `x / 2^53` of `x` once scaled back. -/
theorem scaled_round_error (x : ℚ) (m a b p q : Nat) (hb : 0 < b) (hp : 0 < p) (hq : 0 < q)
    (hx : (a : ℚ) / b = x * q / p)
    (h1 : 2 * a ≤ 2 * (m * b) + b) (h2 : 2 * (m * b) ≤ 2 * a + b) (hbig : b * 2 ^ 52 ≤ a) :
    |((m * p : Nat) : ℚ) / ((q : Nat) : ℚ) - x| ≤ x / 2 ^ 53 := by
  have hbq : (0 : ℚ) < b := by exact_mod_cast hb
  have hpq : (0 : ℚ) < p := by exact_mod_cast hp
  have hqq : (0 : ℚ) < q := by exact_mod_cast hq
  have hxe : x = (a : ℚ) / b * p / q := by
    rw [hx]; field_simp
  have h1q : (2 : ℚ) * a ≤ 2 * (m * b) + b := by exact_mod_cast h1
  have h2q : (2 : ℚ) * (m * b) ≤ 2 * a + b := by exact_mod_cast h2
  have hbigq : (b : ℚ) * 2 ^ 52 ≤ a := by exact_mod_cast hbig
  have hs : (2 : ℚ) ^ 52 ≤ (a : ℚ) / b := by
    rw [le_div_iff₀ hbq]; linarith
  have hsb : (a : ℚ) / b * b = a := div_mul_cancel₀ _ (ne_of_gt hbq)
  have hd1 : |(m : ℚ) - (a : ℚ) / b| ≤ 1 / 2 := by
    rw [abs_le]
    constructor
    · apply le_of_mul_le_mul_right _ hbq
      rw [sub_mul, hsb]; linarith
    · apply le_of_mul_le_mul_right _ hbq
      rw [sub_mul, hsb]; linarith
  have hfac : (0 : ℚ) < p / q := div_pos hpq hqq
  have heq : ((m * p : Nat) : ℚ) / ((q : Nat) : ℚ) - x = ((m : ℚ) - (a : ℚ) / b) * (p / q) := by
    rw [hxe]; push_cast; field_simp; ring
  rw [heq, abs_mul, abs_of_pos hfac]
  calc |(m : ℚ) - (a : ℚ) / b| * (p / q) ≤ 1 / 2 * (p / q) :=
        mul_le_mul_of_nonneg_right hd1 (le_of_lt hfac)
    _ ≤ ((a : ℚ) / b) / 2 ^ 53 * (p / q) := by
        apply mul_le_mul_of_nonneg_right _ (le_of_lt hfac)
        rw [le_div_iff₀ (by positivity)]
        have : (2:ℚ) ^ 53 = 2 * 2 ^ 52 := by norm_num
        rw [this]; linarith
    _ = x / 2 ^ 53 := by rw [hxe]; ring

theorem log2Fuel_spec : ∀ (fuel n : Nat), n ≤ fuel →
    (n ≠ 0 → 2 ^ log2Fuel fuel n ≤ n) ∧ n < 2 ^ (log2Fuel fuel n + 1)
  | 0, n, h => by
    have : n = 0 := by omega
    subst this
    simp [log2Fuel]
  | fuel + 1, n, h => by
    unfold log2Fuel
    split_ifs with h2
    · constructor
      · intro hn; simp; omega
      · simp; omega
    · obtain ⟨i1, i2⟩ := log2Fuel_spec fuel (n / 2) (by omega)
      have i1b := i1 (by omega)
      have e1 : 2 ^ (log2Fuel fuel (n / 2) + 1) = 2 ^ log2Fuel fuel (n / 2) * 2 := Nat.pow_succ _ _
      have e2 : 2 ^ (log2Fuel fuel (n / 2) + 1 + 1) = 2 ^ log2Fuel fuel (n / 2) * 2 * 2 := by
        rw [Nat.pow_succ, Nat.pow_succ]
      rw [e1] at i2
      rw [e1, e2]
      constructor
      · intro _
        omega
      · omega

theorem floorLog2_le (n : Nat) (hn : n ≠ 0) : 2 ^ floorLog2 n ≤ n :=
  (log2Fuel_spec n n (le_refl n)).1 hn

theorem lt_floorLog2 (n : Nat) : n < 2 ^ (floorLog2 n + 1) :=
  (log2Fuel_spec n n (le_refl n)).2

theorem roundPos_error (n d : Nat) (hn : 0 < n) (hd : 0 < d) :
    |roundPos n d - (n : ℚ) / d| ≤ ((n : ℚ) / d) / 2 ^ 53 := by
  have hdq : (0 : ℚ) < d := by exact_mod_cast hd
  have hln := floorLog2_le n (Nat.pos_iff_ne_zero.mp hn)
  have hld : d < 2 ^ (floorLog2 d + 1) := lt_floorLog2 d
  have hexp : floorLog2 d + 52 + (floorLog2 n - (floorLog2 d + 52)) =
      floorLog2 n + (floorLog2 d + 52 - floorLog2 n) := by omega
  unfold roundPos
  simp only
  generalize hup : floorLog2 d + 52 - floorLog2 n = up at hexp
  generalize hdown : floorLog2 n - (floorLog2 d + 52) = down at hexp
  have hpu : 0 < 2 ^ up := Nat.two_pow_pos _
  have hpd : 0 < 2 ^ down := Nat.two_pow_pos _
  have hb : 0 < d * 2 ^ down := Nat.mul_pos hd hpd
  split_ifs with hbig
  · have hs := roundHalfEven_spec (n * 2 ^ up) (d * 2 ^ down) hb
    apply scaled_round_error _ _ (n * 2 ^ up) (d * 2 ^ down) (2 ^ down) (2 ^ up) hb hpd hpu _
      hs.1 hs.2 hbig
    push_cast
    field_simp
  · have hs := roundHalfEven_spec (2 * (n * 2 ^ up)) (d * 2 ^ down) hb
    have hbig2 : d * 2 ^ down * 2 ^ 52 ≤ 2 * (n * 2 ^ up) := by
      have h1 : d * 2 ^ down * 2 ^ 51 < 2 ^ (floorLog2 d + 1) * 2 ^ down * 2 ^ 51 :=
        Nat.mul_lt_mul_of_pos_right (Nat.mul_lt_mul_of_pos_right hld hpd) (Nat.two_pow_pos _)
      have h2 : 2 ^ (floorLog2 d + 1) * 2 ^ down * 2 ^ 51 = 2 ^ (floorLog2 n) * 2 ^ up := by
        rw [← Nat.pow_add, ← Nat.pow_add, ← Nat.pow_add]
        congr 1
        omega
      have h3 : 2 ^ (floorLog2 n) * 2 ^ up ≤ n * 2 ^ up := Nat.mul_le_mul_right _ hln
      have h4 : d * 2 ^ down * 2 ^ 52 = 2 * (d * 2 ^ down * 2 ^ 51) := by ring
      omega
    apply scaled_round_error _ _ (2 * (n * 2 ^ up)) (d * 2 ^ down) (2 ^ down) (2 ^ (up + 1)) hb hpd
      (Nat.two_pow_pos _) _ hs.1 hs.2 hbig2
    push_cast
    field_simp
    ring

theorem toDouble_nonneg (x : ℚ) (hx : 0 ≤ x) : 0 ≤ toDouble x := by
  unfold toDouble
  split_ifs with h1 h2
  · unfold roundPos
    simp only
    split_ifs <;> positivity
  · exact absurd hx (not_le.mpr h2)
  · exact le_refl 0

theorem toDouble_error (x : ℚ) (hx : 0 ≤ x) : |toDouble x - x| ≤ x / 2 ^ 53 := by
  rcases eq_or_lt_of_le hx with h0 | hpos
  · subst h0
    simp [toDouble]
  · have hnum : 0 < x.num := Rat.num_pos.mpr hpos
    have hn : 0 < x.num.natAbs := Int.natAbs_pos.mpr (ne_of_gt hnum)
    have hcast : ((x.num.natAbs : Nat) : ℚ) / (x.den : ℚ) = x := by
      have : ((x.num.natAbs : Nat) : ℚ) = (x.num : ℚ) := by
        rw [← Int.cast_natCast, Int.natAbs_of_nonneg (le_of_lt hnum)]
      rw [this]
      exact Rat.num_div_den x
    have := roundPos_error x.num.natAbs x.den hn x.den_pos
    rw [hcast] at this
    unfold toDouble
    rw [if_pos hpos]
    exact this

/-- One rounding keeps a non-negative value between its two neighbours `x (1 - 2^-53)` and
`x (1 + 2^-53)`. -/
theorem toDouble_between (x : ℚ) (hx : 0 ≤ x) :
    x * (1 - 1 / 2 ^ 53) ≤ toDouble x ∧ toDouble x ≤ x * (1 + 1 / 2 ^ 53) := by
  have := abs_le.mp (toDouble_error x hx)
  constructor <;> linarith

theorem toDouble_scale (x X l h : ℚ) (hl : 0 ≤ l) (hX : 0 ≤ X) (h1 : X * l ≤ x)
    (h2 : x ≤ X * h) :
    X * (l * (1 - 1 / 2 ^ 53)) ≤ toDouble x ∧ toDouble x ≤ X * (h * (1 + 1 / 2 ^ 53)) := by
  have hx : 0 ≤ x := le_trans (mul_nonneg hX hl) h1
  obtain ⟨b1, b2⟩ := toDouble_between x hx
  have hlo : (0 : ℚ) ≤ 1 - 1 / 2 ^ 53 := by norm_num
  have hhi : (0 : ℚ) ≤ 1 + 1 / 2 ^ 53 := by norm_num
  constructor
  · calc X * (l * (1 - 1 / 2 ^ 53)) = X * l * (1 - 1 / 2 ^ 53) := by ring
      _ ≤ x * (1 - 1 / 2 ^ 53) := mul_le_mul_of_nonneg_right h1 hlo
      _ ≤ toDouble x := b1
  · calc toDouble x ≤ x * (1 + 1 / 2 ^ 53) := b2
      _ ≤ X * h * (1 + 1 / 2 ^ 53) := mul_le_mul_of_nonneg_right h2 hhi
      _ = X * (h * (1 + 1 / 2 ^ 53)) := by ring

/-- Error of the five roundings on the way from the counts to the score, for any rounding
`f` that keeps a value `x` between `x * lo` and `x * hi`. -/
theorem score_chain (L V S R lo hi : ℚ) (hL : 0 ≤ L) (hV : 0 ≤ V) (hS : 0 ≤ S) (hR : 0 ≤ R)
    (hlo0 : 0 ≤ lo) (hlo1 : lo ≤ 1) (hhi : 1 ≤ hi) (f : ℚ → ℚ)
    (hf : ∀ x X l h, 0 ≤ l → 0 ≤ X → X * l ≤ x → x ≤ X * h →
      X * (l * lo) ≤ f x ∧ f x ≤ X * (h * hi)) :
    (L * 2 + V * 3 + S * (3 / 2)) * R * lo ^ 5 ≤
      f (f (f (f (L * 2) + f (V * 3)) + f (S * (3 / 2))) * f R) ∧
    f (f (f (f (L * 2) + f (V * 3)) + f (S * (3 / 2))) * f R) ≤
      (L * 2 + V * 3 + S * (3 / 2)) * R * hi ^ 5 := by
  have hhi0 : 0 ≤ hi := le_trans zero_le_one hhi
  have hL2 : 0 ≤ L * 2 := by positivity
  have hV3 : 0 ≤ V * 3 := by positivity
  have hS3 : 0 ≤ S * (3 / 2) := by positivity
  obtain ⟨a1, a2⟩ := hf (L * 2) (L * 2) 1 1 zero_le_one hL2 (by simp) (by simp)
  obtain ⟨b1, b2⟩ := hf (V * 3) (V * 3) 1 1 zero_le_one hV3 (by simp) (by simp)
  obtain ⟨c1, c2⟩ := hf (S * (3 / 2)) (S * (3 / 2)) 1 1 zero_le_one hS3 (by simp) (by simp)
  obtain ⟨r1, r2⟩ := hf R R 1 1 zero_le_one hR (by simp) (by simp)
  simp only [one_mul] at a1 a2 b1 b2 c1 c2 r1 r2
  obtain ⟨s1, s2⟩ := hf (f (L * 2) + f (V * 3)) (L * 2 + V * 3) lo hi hlo0 (by positivity)
    (by linarith) (by linarith)
  have hc1 : S * (3 / 2) * (lo * lo) ≤ S * (3 / 2) * lo := by
    have := mul_nonneg (mul_nonneg hS3 hlo0) (sub_nonneg.mpr hlo1)
    linarith
  have hc2 : S * (3 / 2) * hi ≤ S * (3 / 2) * (hi * hi) := by
    have := mul_nonneg (mul_nonneg hS3 hhi0) (sub_nonneg.mpr hhi)
    linarith
  obtain ⟨t1, t2⟩ := hf (f (f (L * 2) + f (V * 3)) + f (S * (3 / 2)))
    (L * 2 + V * 3 + S * (3 / 2)) (lo * lo) (hi * hi) (by positivity) (by positivity)
    (by linarith) (by linarith)
  have hW : 0 ≤ L * 2 + V * 3 + S * (3 / 2) := by positivity
  have hlo3 : 0 ≤ lo * lo * lo := by positivity
  have ht0 : 0 ≤ f (f (f (L * 2) + f (V * 3)) + f (S * (3 / 2))) :=
    le_trans (mul_nonneg hW hlo3) t1
  have hr0 : 0 ≤ f R := le_trans (mul_nonneg hR hlo0) r1
  obtain ⟨u1, u2⟩ := hf (f (f (f (L * 2) + f (V * 3)) + f (S * (3 / 2))) * f R)
    ((L * 2 + V * 3 + S * (3 / 2)) * R) (lo * lo * lo * lo) (hi * hi * hi * hi)
    (by positivity) (by positivity)
    (by
      calc (L * 2 + V * 3 + S * (3 / 2)) * R * (lo * lo * lo * lo)
          = ((L * 2 + V * 3 + S * (3 / 2)) * (lo * lo * lo)) * (R * lo) := by ring
        _ ≤ f (f (f (L * 2) + f (V * 3)) + f (S * (3 / 2))) * f R :=
          mul_le_mul t1 r1 (mul_nonneg hR hlo0) ht0)
    (by
      calc f (f (f (L * 2) + f (V * 3)) + f (S * (3 / 2))) * f R
          ≤ ((L * 2 + V * 3 + S * (3 / 2)) * (hi * hi * hi)) * (R * hi) :=
          mul_le_mul t2 r2 hr0 (by positivity)
        _ = (L * 2 + V * 3 + S * (3 / 2)) * R * (hi * hi * hi * hi) := by ring)
  constructor
  · calc (L * 2 + V * 3 + S * (3 / 2)) * R * lo ^ 5
        = (L * 2 + V * 3 + S * (3 / 2)) * R * (lo * lo * lo * lo * lo) := by ring
      _ ≤ _ := u1
  · calc f (f (f (f (L * 2) + f (V * 3)) + f (S * (3 / 2))) * f R)
        ≤ (L * 2 + V * 3 + S * (3 / 2)) * R * (hi * hi * hi * hi * hi) := u2
      _ = (L * 2 + V * 3 + S * (3 / 2)) * R * hi ^ 5 := by ring

/-- Counterexample to C18: for the five code units U+05D7, `z`, `o`, U+0005, `u` the
formula gives 12 * (3/5) = 36/5, and `scoreText` gives the double 7.199999999999999
(8106479329266892 / 2^50), which is neither 36/5 nor the double nearest to it. -/
theorem scoreText_formula_counterexample :
    (2 * (countIn isLetter [1495, 122, 111, 5, 117] : ℚ) +
      3 * (countIn isVowel [1495, 122, 111, 5, 117] : ℚ) +
      (3 / 2) * (countIn isSpace [1495, 122, 111, 5, 117] : ℚ)) *
      ((countIn isPrintableChar [1495, 122, 111, 5, 117] : ℚ) /
        (([1495, 122, 111, 5, 117] : Str).length : ℚ)) = 36 / 5 ∧
    scoreText [1495, 122, 111, 5, 117] = 8106479329266892 / 2 ^ 50 ∧
    scoreText [1495, 122, 111, 5, 117] ≠ 36 / 5 ∧
    scoreText [1495, 122, 111, 5, 117] ≠ toDouble (36 / 5) := by
  decide!

/-- Claim C18, amended: `scoreText(t)` is never negative and is 0 for the empty string; for
a non-empty `t` it is the value of `(2 * letters + 3 * vowels + 1.5 * whitespace) *
(printable / length)` computed in double arithmetic, which lies within a relative error of
2^-50 of the exact value of that formula (and is 0 when the exact value is 0). -/
theorem scoreText_bounds (t : Str) :
    0 ≤ scoreText t ∧ scoreText [] = 0 ∧
    (t ≠ [] →
      scoreText t =
        dmul (dadd (dadd (dmul (countIn isLetter t) 2) (dmul (countIn isVowel t) 3))
          (dmul (countIn isSpace t) (3 / 2)))
          (ddiv (countIn isPrintableChar t) t.length) ∧
      |scoreText t -
          (2 * (countIn isLetter t : ℚ) + 3 * (countIn isVowel t : ℚ) +
            (3 / 2) * (countIn isSpace t : ℚ)) *
          ((countIn isPrintableChar t : ℚ) / (t.length : ℚ))| ≤
        (2 * (countIn isLetter t : ℚ) + 3 * (countIn isVowel t : ℚ) +
            (3 / 2) * (countIn isSpace t : ℚ)) *
          ((countIn isPrintableChar t : ℚ) / (t.length : ℚ)) / 2 ^ 50) := by
  have hnn : 0 ≤ scoreText t := by
    unfold scoreText
    split_ifs
    · exact le_refl 0
    · simp only [dmul, dadd, ddiv]
      apply toDouble_nonneg
      apply mul_nonneg
      · apply toDouble_nonneg
        apply add_nonneg
        · apply toDouble_nonneg
          apply add_nonneg <;> apply toDouble_nonneg <;> positivity
        · apply toDouble_nonneg; positivity
      · apply toDouble_nonneg; positivity
  refine ⟨hnn, by simp [scoreText], ?_⟩
  intro hne
  have hdef : scoreText t =
      dmul (dadd (dadd (dmul (countIn isLetter t) 2) (dmul (countIn isVowel t) 3))
        (dmul (countIn isSpace t) (3 / 2)))
        (ddiv (countIn isPrintableChar t) t.length) := by
    unfold scoreText
    rw [if_neg hne]
  refine ⟨hdef, ?_⟩
  rw [hdef]
  simp only [dmul, dadd, ddiv]
  have hE : 0 ≤ ((countIn isLetter t : ℚ) * 2 + (countIn isVowel t : ℚ) * 3 +
      (countIn isSpace t : ℚ) * (3 / 2)) *
      ((countIn isPrintableChar t : ℚ) / (t.length : ℚ)) := by positivity
  obtain ⟨c1, c2⟩ := score_chain (countIn isLetter t) (countIn isVowel t) (countIn isSpace t)
    ((countIn isPrintableChar t : ℚ) / (t.length : ℚ)) (1 - 1 / 2 ^ 53) (1 + 1 / 2 ^ 53)
    (by positivity) (by positivity) (by positivity) (by positivity)
    (by norm_num) (by norm_num) (by norm_num) toDouble toDouble_scale
  have hlo : (1 : ℚ) - 1 / 2 ^ 50 ≤ (1 - 1 / 2 ^ 53) ^ 5 := by norm_num
  have hhi : ((1 : ℚ) + 1 / 2 ^ 53) ^ 5 ≤ 1 + 1 / 2 ^ 50 := by norm_num
  have d1 := mul_le_mul_of_nonneg_left hlo hE
  have d2 := mul_le_mul_of_nonneg_left hhi hE
  rw [abs_le]
  constructor <;> linarith

/-! ## Order of equal scores -/

theorem not_pair_sublist_swap {α : Type} : ∀ (l : List α), l.Nodup → ∀ a b : α,
    List.Sublist [a, b] l → ¬ List.Sublist [b, a] l
  | [], _, a, b, h, _ => by simp at h
  | x :: t, hn, a, b, h1, h2 => by
    obtain ⟨hx, ht⟩ := List.nodup_cons.mp hn
    cases h1 with
    | cons _ h1 =>
      cases h2 with
      | cons _ h2 => exact not_pair_sublist_swap t ht a b h1 h2
      | cons₂ _ h2 => exact hx (h1.subset (by simp))
    | cons₂ _ h1 =>
      cases h2 with
      | cons _ h2 => exact hx (h2.subset (by simp))
      | cons₂ _ h2 => exact hx (h2.subset (by simp))

theorem pair_sublist_or_swap {α : Type} : ∀ (l : List α) (a b : α), a ∈ l → b ∈ l → a ≠ b →
    List.Sublist [a, b] l ∨ List.Sublist [b, a] l
  | [], a, _, h, _, _ => absurd h (List.not_mem_nil a)
  | x :: t, a, b, ha, hb, hab => by
    rcases List.mem_cons.mp ha with rfl | ha'
    · rcases List.mem_cons.mp hb with rfl | hb'
      · exact absurd rfl hab
      · exact Or.inl (List.Sublist.cons₂ _ (List.singleton_sublist.mpr hb'))
    · rcases List.mem_cons.mp hb with rfl | hb'
      · exact Or.inr (List.Sublist.cons₂ _ (List.singleton_sublist.mpr ha'))
      · rcases pair_sublist_or_swap t a b ha' hb' hab with h | h
        · exact Or.inl (List.Sublist.cons _ h)
        · exact Or.inr (List.Sublist.cons _ h)

theorem pair_sublist_take {α : Type} (l : List α) (hn : l.Nodup) (n : Nat) (a b : α)
    (h : List.Sublist [a, b] l) (ha : a ∈ l.take n) (hb : b ∈ l.take n) :
    List.Sublist [a, b] (l.take n) := by
  have hne : a ≠ b := by
    rintro rfl
    have := h.nodup hn
    simp at this
  rcases pair_sublist_or_swap (l.take n) a b ha hb hne with h1 | h1
  · exact h1
  · exact absurd (h1.trans (List.take_sublist n l)) (not_pair_sublist_swap l hn a b h)

theorem sortByScore_pair (l : List Candidate) (a b : Candidate) (hab : b.score ≤ a.score)
    (h : List.Sublist [a, b] l) : List.Sublist [a, b] (sortByScore l) := by
  unfold sortByScore
  exact List.pair_sublist_insertionSort
    (show (fun (x y : Candidate) => y.score ≤ x.score) a b from hab) h

theorem sortByScore_nodup (l : List Candidate) (h : l.Nodup) : (sortByScore l).Nodup :=
  (sortByScore_perm l).symm.nodup h

/-! ## The XOR search -/

theorem xorCandidates_eq (bytes : List Nat) :
    xorCandidates bytes =
      ((List.range' 1 255).map (xorCandidate bytes)).filter fun c => decide (c.score > 0) := by
  unfold xorCandidates
  induction List.range' 1 255 with
  | nil => rfl
  | cons k t ih =>
    rw [List.filterMap_cons, List.map_cons, List.filter_cons]
    by_cases hs : scoreText (xorText bytes k) > 0
    · have hd : decide ((xorCandidate bytes k).score > 0) = true := by
        simpa [xorCandidate] using hs
      simp only [hs, if_true, hd]
      rw [ih]
      rfl
    · have hd : decide ((xorCandidate bytes k).score > 0) = false := by
        simpa [xorCandidate] using hs
      simp only [hs, if_false, hd]
      rw [ih]
      simp

theorem xorCandidates_pairwise (bytes : List Nat) :
    (xorCandidates bytes).Pairwise fun a b =>
      ∃ ka kb, a.variant = some ka ∧ b.variant = some kb ∧ ka < kb := by
  unfold xorCandidates
  apply List.Pairwise.filterMap _ _ (List.pairwise_lt_range' 1 255)
  intro k k2 hlt a ha b hb
  simp only at ha hb
  split_ifs at ha hb
  · simp only [Option.mem_def, Option.some.injEq] at ha hb
    subst ha hb
    exact ⟨k, k2, rfl, rfl, hlt⟩
  all_goals simp at ha hb

theorem xorCandidates_nodup (bytes : List Nat) : (xorCandidates bytes).Nodup := by
  apply (xorCandidates_pairwise bytes).imp
  rintro a b ⟨ka, kb, ha, hb, hlt⟩ rfl
  rw [ha] at hb
  have := Option.some.inj hb
  omega

/-- Claim C19: `trySingleByteXor` returns the first 8 elements of the stable sort, by
descending score, of the candidates of the keys 1 to 255, in that order, whose score is
positive. Every returned candidate has a key from 1 to 255 (never 0), a positive score and
as text the UTF-8 decoding, errors replaced, of the derived bytes XORed with its key; the
scores do not increase along the list, and of two returned candidates of equal score the
one of the smaller key comes first. -/
theorem trySingleByteXor_spec (input : Str) :
    trySingleByteXor input =
      (sortByScore (((List.range' 1 255).map (xorCandidate (toBytes input))).filter
        fun c => decide (c.score > 0))).take 8 ∧
    (∀ c ∈ trySingleByteXor input, ∃ k, 1 ≤ k ∧ k ≤ 255 ∧ c.algo = "xor" ∧
      c.variant = some k ∧ c.text = utf8Decode ((toBytes input).map fun b => b ^^^ k) ∧
      c.score = scoreText c.text ∧ 0 < c.score) ∧
    (∀ c ∈ trySingleByteXor input, c.variant ≠ some 0) ∧
    (trySingleByteXor input).Pairwise (fun a b => a.score ≥ b.score) ∧
    ∀ a b ka kb, List.Sublist [a, b] (trySingleByteXor input) → a.score = b.score →
      a.variant = some ka → b.variant = some kb → ka < kb := by
  have hmem : ∀ c ∈ trySingleByteXor input, ∃ k, 1 ≤ k ∧ k ≤ 255 ∧ c.algo = "xor" ∧
      c.variant = some k ∧ c.text = utf8Decode ((toBytes input).map fun b => b ^^^ k) ∧
      c.score = scoreText c.text ∧ 0 < c.score := by
    intro c hc
    obtain ⟨k, hk, hs, rfl⟩ := (mem_xorCandidates _ _).mp (mem_trySingleByteXor input c hc)
    rw [List.mem_range'_1] at hk
    exact ⟨k, hk.1, by omega, rfl, rfl, rfl, rfl, hs⟩
  refine ⟨?_, hmem, ?_, ?_, ?_⟩
  · unfold trySingleByteXor
    rw [xorCandidates_eq]
  · intro c hc h0
    obtain ⟨k, hk1, _, _, hv, _⟩ := hmem c hc
    rw [hv] at h0
    have := Option.some.inj h0
    omega
  · unfold trySingleByteXor
    exact (sortByScore_sorted _).sublist (List.take_sublist 8 _)
  · intro a b ka kb hsub heq hka hkb
    have hS : List.Sublist [a, b] (sortByScore (xorCandidates (toBytes input))) :=
      hsub.trans (List.take_sublist 8 _)
    have hnS := sortByScore_nodup _ (xorCandidates_nodup (toBytes input))
    have hne : a ≠ b := by
      rintro rfl
      have := hS.nodup hnS
      simp at this
    have ha : a ∈ xorCandidates (toBytes input) :=
      (mem_sortByScore _ a).mp (hS.subset (by simp))
    have hb : b ∈ xorCandidates (toBytes input) :=
      (mem_sortByScore _ b).mp (hS.subset (by simp))
    rcases pair_sublist_or_swap _ a b ha hb hne with h | h
    · have hp := (xorCandidates_pairwise (toBytes input)).sublist h
      obtain ⟨ka2, kb2, h1, h2, hlt⟩ := (List.pairwise_pair.mp hp)
      rw [hka] at h1
      rw [hkb] at h2
      have e1 := Option.some.inj h1
      have e2 := Option.some.inj h2
      omega
    · have := sortByScore_pair _ b a (le_of_eq heq) h
      exact absurd this (not_pair_sublist_swap _ hnS a b hS)

/-! ### Two inputs where the rounding of the scores decides the order -/

set_option maxRecDepth 1000000 in
/-- On `yopnchho` the keys 33, 34 and 38 score the double 7.2 and the key 29 scores
7.199999999999999 (12 times the double nearest to 3/5), so 29 comes after them. -/
theorem trySingleByteXor_yopnchho :
    (trySingleByteXor (ofString "yopnchho")).map (fun c => c.variant) =
      [some 61, some 33, some 34, some 38, some 29, some 39, some 7, some 40] := by
  decide!

set_option maxRecDepth 1000000 in
/-- On `hjUgOgpvafcv` the eighth and last candidate is the one of key 85. -/
theorem trySingleByteXor_hjUgOgpvafcv :
    (trySingleByteXor (ofString "hjUgOgpvafcv")).map (fun c => c.variant) =
      [some 79, some 64, some 90, some 67, some 73, some 101, some 111, some 85] := by
  decide!

/-! ## One candidate a scheme -/

theorem Scheme.name_injective (k1 k2 : Scheme) (h : k1.name = k2.name) : k1 = k2 := by
  cases k1 <;> cases k2 <;> first | rfl | (simp [Scheme.name] at h)

theorem Scheme.name_ne_xor (k : Scheme) : k.name ≠ "xor" := by
  cases k <;> simp [Scheme.name]

theorem tryAll_perm (host : Host) (input : Str) :
    (tryAll host input).Perm
      (Scheme.all.flatMap (attempt host input) ++ trySingleByteXor input) := by
  unfold tryAll
  exact (sortByScore_perm _).trans ((sortByScore_perm _).append_right _)

theorem filter_attempt (host : Host) (input : Str) (key k : Scheme) :
    (attempt host input k).filter (fun c => decide (c.algo = key.name)) =
      if k = key then attempt host input k else [] := by
  split_ifs with h
  · subst h
    rw [List.filter_eq_self]
    intro c hc
    simpa using attempt_algo host input k c hc
  · rw [List.filter_eq_nil_iff]
    intro c hc
    have := attempt_algo host input k c hc
    simp only [decide_eq_true_eq]
    intro hcn
    exact h (Scheme.name_injective _ _ (this.symm.trans hcn))

/-- The candidates of `tryAll` that carry the name of a scheme are what that scheme
pushed. -/
theorem filter_algo_tryAll (host : Host) (input : Str) (key : Scheme) :
    ((tryAll host input).filter (fun c => decide (c.algo = key.name))).Perm
      (attempt host input key) := by
  have hx : (trySingleByteXor input).filter (fun c => decide (c.algo = key.name)) = [] := by
    rw [List.filter_eq_nil_iff]
    intro c hc
    obtain ⟨k, _, _, rfl⟩ := (mem_xorCandidates _ _).mp (mem_trySingleByteXor input c hc)
    simp only [decide_eq_true_eq, xorCandidate]
    exact fun h => Scheme.name_ne_xor key h.symm
  have hd : (Scheme.all.flatMap (attempt host input)).filter
      (fun c => decide (c.algo = key.name)) = attempt host input key := by
    rw [List.filter_flatMap]
    simp only [filter_attempt]
    cases key <;> simp [Scheme.all]
  have := (tryAll_perm host input).filter (fun c => decide (c.algo = key.name))
  rw [List.filter_append, hx, List.append_nil, hd] at this
  exact this

/-- Claim C14: `tryAll` returns a list for every input, and for every key of `decoders`
other than `caesar` the list holds a candidate with that algo if and only if the decoder
of that key succeeds on the input; there is then exactly one, with the output of the
decoder as text and `scoreText` of that output as score. -/
theorem tryAll_skips_failures (host : Host) (input : Str) (key : Scheme)
    (hk : key ≠ .caesar) :
    ((∃ c ∈ tryAll host input, c.algo = key.name) ↔
      ∃ out, runDecoder host key input = .ok out) ∧
    (∀ out, runDecoder host key input = .ok out →
      (tryAll host input).filter (fun c => decide (c.algo = key.name)) =
        [{ algo := key.name, variant := none, text := out, score := scoreText out }]) ∧
    ((∃ msg, runDecoder host key input = .error msg) →
      (tryAll host input).filter (fun c => decide (c.algo = key.name)) = []) := by
  have hperm := filter_algo_tryAll host input key
  have hok : ∀ out, runDecoder host key input = .ok out →
      (tryAll host input).filter (fun c => decide (c.algo = key.name)) =
        [{ algo := key.name, variant := none, text := out, score := scoreText out }] := by
    intro out ho
    rw [attempt_of_ok host input key out hk ho] at hperm
    exact List.perm_singleton.mp hperm
  have herr : (∃ msg, runDecoder host key input = .error msg) →
      (tryAll host input).filter (fun c => decide (c.algo = key.name)) = [] := by
    rintro ⟨msg, hm⟩
    have : attempt host input key = [] := by
      unfold attempt
      simp only [hk, if_false, hm]
    rw [this] at hperm
    exact List.perm_nil.mp hperm
  refine ⟨⟨?_, ?_⟩, hok, herr⟩
  · rintro ⟨c, hc, ha⟩
    cases hr : runDecoder host key input with
    | ok out => exact ⟨out, rfl⟩
    | error msg =>
      have hnil := herr ⟨msg, hr⟩
      have : c ∈ (tryAll host input).filter (fun c => decide (c.algo = key.name)) :=
        List.mem_filter.mpr ⟨hc, by simpa using ha⟩
      rw [hnil] at this
      exact absurd this (List.not_mem_nil _)
  · rintro ⟨out, ho⟩
    have hmem : ({ algo := key.name, variant := none, text := out, score := scoreText out } :
        Candidate) ∈ (tryAll host input).filter (fun c => decide (c.algo = key.name)) := by
      rw [hok out ho]
      exact List.mem_singleton.mpr rfl
    exact ⟨_, (List.mem_filter.mp hmem).1, rfl⟩

/-- Witness of C14 at the input `48656c6c6f`, the key `hex` and a browser whose functions
return their argument. -/
theorem tryAll_skips_failures_witness :
    ((∃ c ∈ tryAll ⟨id, Except.ok, Except.ok, fun _ => none⟩ (ofString "48656c6c6f"),
        c.algo = Scheme.hex.name) ↔
      ∃ out, runDecoder ⟨id, Except.ok, Except.ok, fun _ => none⟩ .hex
        (ofString "48656c6c6f") = .ok out) ∧
    (∀ out, runDecoder ⟨id, Except.ok, Except.ok, fun _ => none⟩ .hex
        (ofString "48656c6c6f") = .ok out →
      (tryAll ⟨id, Except.ok, Except.ok, fun _ => none⟩ (ofString "48656c6c6f")).filter
          (fun c => decide (c.algo = Scheme.hex.name)) =
        [{ algo := Scheme.hex.name, variant := none, text := out, score := scoreText out }]) ∧
    ((∃ msg, runDecoder ⟨id, Except.ok, Except.ok, fun _ => none⟩ .hex
        (ofString "48656c6c6f") = .error msg) →
      (tryAll ⟨id, Except.ok, Except.ok, fun _ => none⟩ (ofString "48656c6c6f")).filter
          (fun c => decide (c.algo = Scheme.hex.name)) = []) :=
  tryAll_skips_failures ⟨id, Except.ok, Except.ok, fun _ => none⟩ (ofString "48656c6c6f")
    .hex (by decide)

/-! ## Order of the result of `tryAll` -/

/-- Claim C15: the list that `tryAll` returns is sorted by non-increasing score, and two
candidates of equal score stand in the order in which they were produced: the candidates
of the decoders in the order of the registry (base64, hex, binary, rot13, leet, atbash,
base32, reverse, html, morse, caesar, url), then the XOR candidates by ascending key. -/
theorem tryAll_sorted_stable (host : Host) (input : Str) :
    (tryAll host input).Pairwise (fun a b => a.score ≥ b.score) ∧
    Scheme.all.map Scheme.name =
      ["base64", "hex", "binary", "rot13", "leet", "atbash", "base32", "reverse", "html",
       "morse", "caesar", "url"] ∧
    ((xorCandidates (toBytes input)).Pairwise fun a b =>
      ∃ ka kb, a.variant = some ka ∧ b.variant = some kb ∧ ka < kb) ∧
    ∀ a b, a ∈ tryAll host input → b ∈ tryAll host input → a.score = b.score →
      List.Sublist [a, b]
        (Scheme.all.flatMap (attempt host input) ++ xorCandidates (toBytes input)) →
      List.Sublist [a, b] (tryAll host input) := by
  refine ⟨?_, rfl, xorCandidates_pairwise _, ?_⟩
  · unfold tryAll
    exact sortByScore_sorted _
  · intro a b ha hb heq hsub
    have hfinal : List.Sublist [a, b]
        (sortByScore (Scheme.all.flatMap (attempt host input)) ++ trySingleByteXor input) →
        List.Sublist [a, b] (tryAll host input) := by
      intro h
      unfold tryAll
      exact sortByScore_pair _ a b (le_of_eq heq.symm) h
    have hxor : ∀ c, c ∈ tryAll host input → c ∈ xorCandidates (toBytes input) →
        c ∈ trySingleByteXor input := by
      intro c hc hx
      rcases (mem_tryAll host input c).mp hc with ⟨key, _, hk⟩ | h
      · obtain ⟨k, _, _, rfl⟩ := (mem_xorCandidates _ _).mp hx
        have := attempt_algo host input key _ hk
        exact absurd this.symm (Scheme.name_ne_xor key)
      · exact h
    obtain ⟨l1, l2, hl, h1, h2⟩ := List.sublist_append_iff.mp hsub
    apply hfinal
    match l1, hl, h1 with
    | [], hl, _ =>
      simp only [List.nil_append] at hl
      subst hl
      have hba : b ∈ xorCandidates (toBytes input) := h2.subset (by simp)
      have haa : a ∈ xorCandidates (toBytes input) := h2.subset (by simp)
      have hS := sortByScore_pair _ a b (le_of_eq heq.symm) h2
      have := pair_sublist_take _ (sortByScore_nodup _ (xorCandidates_nodup _)) 8 a b hS
        (hxor a ha haa) (hxor b hb hba)
      exact List.Sublist.trans this (List.sublist_append_right _ _)
    | [x], hl, h1 =>
      simp only [List.singleton_append, List.cons.injEq] at hl
      obtain ⟨rfl, rfl⟩ := hl
      have hba : b ∈ xorCandidates (toBytes input) := h2.subset (by simp)
      have h1s : List.Sublist [a] (sortByScore (Scheme.all.flatMap (attempt host input))) :=
        List.singleton_sublist.mpr
          ((mem_sortByScore _ a).mpr (h1.subset (by simp)))
      have h2s : List.Sublist [b] (trySingleByteXor input) :=
        List.singleton_sublist.mpr (hxor b hb hba)
      exact List.Sublist.append h1s h2s
    | [x, y], hl, h1 =>
      simp only [List.cons_append, List.nil_append, List.cons.injEq] at hl
      obtain ⟨rfl, rfl, rfl⟩ := hl
      exact List.Sublist.trans (sortByScore_pair _ a b (le_of_eq heq.symm) h1)
        (List.sublist_append_left _ _)
    | x :: y :: z :: r, hl, _ =>
      simp at hl

/-! ## The Caesar candidate -/

theorem caesarBest_fold (input : Str) : ∀ (l : List Nat) (b : CaesarBest),
    b.score ≤ (l.foldl
      (fun (best : CaesarBest) (shift : Nat) =>
        let t := caesar input (shift : Int)
        let sc := scoreText t
        if sc > best.score then { score := sc, shift := shift, text := t } else best) b).score ∧
    (∀ s ∈ l, scoreText (caesar input (s : Int)) ≤ (l.foldl
      (fun (best : CaesarBest) (shift : Nat) =>
        let t := caesar input (shift : Int)
        let sc := scoreText t
        if sc > best.score then { score := sc, shift := shift, text := t } else best) b).score) ∧
    ((l.foldl
      (fun (best : CaesarBest) (shift : Nat) =>
        let t := caesar input (shift : Int)
        let sc := scoreText t
        if sc > best.score then { score := sc, shift := shift, text := t } else best) b) = b ∨
     ∃ s ∈ l, (l.foldl
      (fun (best : CaesarBest) (shift : Nat) =>
        let t := caesar input (shift : Int)
        let sc := scoreText t
        if sc > best.score then { score := sc, shift := shift, text := t } else best) b) =
        { score := scoreText (caesar input (s : Int)), shift := s,
          text := caesar input (s : Int) })
  | [], b => by simp
  | k :: t, b => by
    rw [List.foldl_cons]
    by_cases hgt : scoreText (caesar input (k : Int)) > b.score
    · obtain ⟨h1, h2, h3⟩ := caesarBest_fold input t
        { score := scoreText (caesar input (k : Int)), shift := k, text := caesar input (k : Int) }
      simp only [hgt, if_true]
      simp only at h1
      refine ⟨le_trans (le_of_lt hgt) h1, ?_, ?_⟩
      · intro s hs
        rcases List.mem_cons.mp hs with rfl | hs
        · exact h1
        · exact h2 s hs
      · right
        rcases h3 with h3 | ⟨s, hs, h3⟩
        · exact ⟨k, List.mem_cons_self _ _, h3⟩
        · exact ⟨s, List.mem_cons_of_mem _ hs, h3⟩
    · obtain ⟨h1, h2, h3⟩ := caesarBest_fold input t b
      simp only [hgt, if_false]
      refine ⟨h1, ?_, ?_⟩
      · intro s hs
        rcases List.mem_cons.mp hs with rfl | hs
        · exact le_trans (not_lt.mp hgt) h1
        · exact h2 s hs
      · rcases h3 with h3 | ⟨s, hs, h3⟩
        · exact Or.inl h3
        · exact Or.inr ⟨s, List.mem_cons_of_mem _ hs, h3⟩

theorem caesarBest_spec (input : Str) :
    0 ≤ (caesarBest input).score ∧
    (∀ s ∈ List.range' 1 25, scoreText (caesar input (s : Int)) ≤ (caesarBest input).score) ∧
    (0 < (caesarBest input).score → ∃ s ∈ List.range' 1 25,
      caesarBest input = { score := scoreText (caesar input (s : Int)), shift := s,
                           text := caesar input (s : Int) }) := by
  obtain ⟨h1, h2, h3⟩ := caesarBest_fold input (List.range' 1 25)
    { score := 0, shift := 0, text := [] }
  refine ⟨h1, h2, ?_⟩
  intro hpos
  rcases h3 with h3 | h3
  · unfold caesarBest at hpos
    rw [h3] at hpos
    exact absurd hpos (lt_irrefl _)
  · exact h3

/-- Counterexample to C20: on the input `1` every Caesar shift scores 0, and the list that
`tryAll` returns holds no candidate with algo `caesar`, whatever the browser provides. -/
theorem tryAll_caesar_counterexample :
    ¬ ∃ host : Host, ∃ c ∈ tryAll host (ofString "1"), c.algo = "caesar" := by
  rintro ⟨host, c, hc, ha⟩
  have hb : (caesarBest (ofString "1")).score = 0 := by decide!
  rcases (mem_tryAll host _ c).mp hc with ⟨key, _, hk⟩ | h
  · have hn := attempt_algo host _ key c hk
    rw [ha] at hn
    have hkey : key = .caesar := Scheme.name_injective _ _ hn.symm
    subst hkey
    unfold attempt at hk
    simp [hb] at hk
  · obtain ⟨k, _, _, rfl⟩ := (mem_xorCandidates _ _).mp (mem_trySingleByteXor _ c h)
    simp [xorCandidate] at ha

/-- Claim C20, amended: when some shift from 1 to 25 gives `decoders.caesar(input, s)` a
positive score, the list that `tryAll` returns holds exactly one candidate with algo
`caesar`; its score is the maximum of those scores, its variant is a shift from 1 to 25
that attains it and its text is `decoders.caesar(input, variant)`. When no shift gives a
positive score the list holds no candidate with algo `caesar`. -/
theorem tryAll_caesar (host : Host) (input : Str) :
    ((∃ s ∈ List.range' 1 25, 0 < scoreText (caesar input (s : Int))) →
      ∃ c, (tryAll host input).filter (fun c => decide (c.algo = "caesar")) = [c] ∧
        (∀ s ∈ List.range' 1 25, scoreText (caesar input (s : Int)) ≤ c.score) ∧
        ∃ v ∈ List.range' 1 25, c.variant = some v ∧ c.text = caesar input (v : Int) ∧
          c.score = scoreText (caesar input (v : Int))) ∧
    ((∀ s ∈ List.range' 1 25, scoreText (caesar input (s : Int)) ≤ 0) →
      (tryAll host input).filter (fun c => decide (c.algo = "caesar")) = []) := by
  obtain ⟨h0, hmax, hbest⟩ := caesarBest_spec input
  have hperm := filter_algo_tryAll host input .caesar
  have hatt : attempt host input .caesar =
      if (caesarBest input).score > 0 then
        [{ algo := "caesar", variant := some (caesarBest input).shift,
           text := (caesarBest input).text, score := (caesarBest input).score }]
      else [] := by
    unfold attempt
    simp only [if_true]
  rw [hatt] at hperm
  constructor
  · rintro ⟨s, hs, hpos⟩
    have hbpos : 0 < (caesarBest input).score := lt_of_lt_of_le hpos (hmax s hs)
    rw [if_pos hbpos] at hperm
    obtain ⟨v, hv, hbv⟩ := hbest hbpos
    have hfil := List.perm_singleton.mp hperm
    generalize caesarBest input = best at hfil hmax hbv
    subst hbv
    exact ⟨_, hfil, hmax, v, hv, rfl, rfl, rfl⟩
  · intro hall
    have hnot : ¬ (caesarBest input).score > 0 := by
      intro hbpos
      obtain ⟨v, hv, hbv⟩ := hbest hbpos
      have := hall v hv
      rw [hbv] at hbpos
      exact absurd hbpos (not_lt.mpr this)
    rw [if_neg hnot] at hperm
    exact List.perm_nil.mp hperm

theorem caesar_score_uryyb : 0 < scoreText (caesar (ofString "Uryyb") ((13 : Nat) : Int)) := by
  decide!

set_option maxRecDepth 100000 in
theorem caesar_scores_one :
    ∀ s ∈ List.range' 1 25, scoreText (caesar (ofString "1") (s : Int)) ≤ 0 := by
  decide!

/-- Witness of the amended C20 at the input `Uryyb` (shift 13 scores above 0) and at the
input `1` (no shift does), for a browser whose functions return their argument. -/
theorem tryAll_caesar_witness :
    (∃ c, (tryAll ⟨id, Except.ok, Except.ok, fun _ => none⟩ (ofString "Uryyb")).filter
        (fun c => decide (c.algo = "caesar")) = [c] ∧
      (∀ s ∈ List.range' 1 25, scoreText (caesar (ofString "Uryyb") (s : Int)) ≤ c.score) ∧
      ∃ v ∈ List.range' 1 25, c.variant = some v ∧ c.text = caesar (ofString "Uryyb") (v : Int) ∧
        c.score = scoreText (caesar (ofString "Uryyb") (v : Int))) ∧
    (tryAll ⟨id, Except.ok, Except.ok, fun _ => none⟩ (ofString "1")).filter
      (fun c => decide (c.algo = "caesar")) = [] :=
  ⟨(tryAll_caesar ⟨id, Except.ok, Except.ok, fun _ => none⟩ (ofString "Uryyb")).1
      ⟨13, by decide, caesar_score_uryyb⟩,
   (tryAll_caesar ⟨id, Except.ok, Except.ok, fun _ => none⟩ (ofString "1")).2 caesar_scores_one⟩

/-! ## Morse: one word of tokens -/

theorem joinWith_singleton (sep t : Str) : joinWith sep [t] = t := by
  simp [joinWith, List.intercalate, List.intersperse]

theorem joinWith_cons_cons (sep t u : Str) (l : List Str) :
    joinWith sep (t :: u :: l) = t ++ (sep ++ joinWith sep (u :: l)) := by
  simp [joinWith, List.intercalate, List.intersperse]

theorem joinWith_nil_sep : ∀ (l : List Str), joinWith [] l = l.flatten
  | [] => by simp [joinWith, List.intercalate, List.intersperse]
  | [t] => by simp [joinWith_singleton]
  | t :: u :: l => by
    rw [joinWith_cons_cons, joinWith_nil_sep (u :: l)]
    simp

theorem dropWhile_isSpace_eq_self (s : Str) (h : ∀ a ∈ s.head?, isSpace a = false) :
    s.dropWhile isSpace = s := by
  cases s with
  | nil => rfl
  | cons a r => simp [List.dropWhile, h a (by simp)]

theorem trim_eq_self_of_ends (s : Str) (h1 : ∀ a ∈ s.head?, isSpace a = false)
    (h2 : ∀ z ∈ s.getLast?, isSpace z = false) : trim s = s := by
  unfold trim
  rw [dropWhile_isSpace_eq_self s h1,
    dropWhile_isSpace_eq_self s.reverse (by rw [List.head?_reverse]; exact h2),
    List.reverse_reverse]

theorem chain_append_token (t l : Str) (ht : ∀ c ∈ t, isSpace c = false)
    (hl : List.Chain' (fun a b => ¬ (isSpace a = true ∧ isSpace b = true)) l) :
    List.Chain' (fun a b => ¬ (isSpace a = true ∧ isSpace b = true)) (t ++ l) := by
  induction t with
  | nil => exact hl
  | cons c r ih =>
    rw [List.cons_append, List.chain'_cons']
    refine ⟨fun y _ hy => ?_, ih (fun x hx => ht x (List.mem_cons_of_mem _ hx))⟩
    rw [ht c (List.mem_cons_self _ _)] at hy
    exact absurd hy.1 (by simp)

theorem joined_tokens_shape : ∀ (tokens : List Str), tokens ≠ [] →
    (∀ t ∈ tokens, t ≠ [] ∧ ∀ c ∈ t, isSpace c = false ∧ c ≠ 47 ∧ c ≠ 124) →
    (∃ a, (joinWith [32] tokens).head? = some a ∧ isSpace a = false) ∧
    (∃ z, (joinWith [32] tokens).getLast? = some z ∧ isSpace z = false) ∧
    (∀ c ∈ joinWith [32] tokens, c ≠ 47 ∧ c ≠ 124) ∧
    List.Chain' (fun a b => ¬ (isSpace a = true ∧ isSpace b = true)) (joinWith [32] tokens)
  | [], h, _ => absurd rfl h
  | [t], _, ht => by
    obtain ⟨hne, hc⟩ := ht t (List.mem_cons_self _ _)
    rw [joinWith_singleton]
    refine ⟨?_, ?_, fun c hcm => (hc c hcm).2, ?_⟩
    · cases t with
      | nil => exact absurd rfl hne
      | cons a r => exact ⟨a, rfl, (hc a (List.mem_cons_self _ _)).1⟩
    · obtain ⟨z, hz⟩ := Option.isSome_iff_exists.mp
        (by rw [List.getLast?_isSome]; exact hne : (t.getLast?).isSome = true)
      exact ⟨z, hz, (hc z (List.mem_of_getLast?_eq_some hz)).1⟩
    · have := chain_append_token t [] (fun c hcm => (hc c hcm).1) List.chain'_nil
      rwa [List.append_nil] at this
  | t :: u :: l, _, ht => by
    obtain ⟨hne, hc⟩ := ht t (List.mem_cons_self _ _)
    obtain ⟨⟨a, ha, hsa⟩, ⟨z, hz, hsz⟩, hall, hch⟩ := joined_tokens_shape (u :: l) (by simp)
      (fun x hx => ht x (List.mem_cons_of_mem _ hx))
    rw [joinWith_cons_cons]
    refine ⟨?_, ?_, ?_, ?_⟩
    · cases t with
      | nil => exact absurd rfl hne
      | cons b r => exact ⟨b, rfl, (hc b (List.mem_cons_self _ _)).1⟩
    · refine ⟨z, ?_, hsz⟩
      rw [List.getLast?_append, List.getLast?_append, hz]
      rfl
    · intro c hcm
      rcases List.mem_append.mp hcm with h | h
      · exact (hc c h).2
      · rcases List.mem_append.mp h with h | h
        · rw [List.mem_singleton.mp h]
          decide
        · exact hall c h
    · apply chain_append_token t _ (fun c hcm => (hc c hcm).1)
      rw [List.singleton_append, List.chain'_cons']
      refine ⟨fun y hy hsp => ?_, hch⟩
      rw [ha] at hy
      have : y = a := (Option.some.inj hy).symm
      subst this
      rw [hsa] at hsp
      exact absurd hsp.2 (by simp)

theorem pipeToSlash_eq_self (s : Str) (h : ∀ c ∈ s, c ≠ 124) : pipeToSlash s = s := by
  unfold pipeToSlash
  induction s with
  | nil => rfl
  | cons a r ih =>
    rw [List.flatMap_cons, if_neg (h a (List.mem_cons_self _ _)),
      ih (fun c hc => h c (List.mem_cons_of_mem _ hc))]
    rfl

theorem morseSepLength_eq_zero (s : Str) (h : ∀ c ∈ s, c ≠ 47)
    (hch : List.Chain' (fun a b => ¬ (isSpace a = true ∧ isSpace b = true)) s) :
    morseSepLength s = 0 := by
  match s, h, hch with
  | [], _, _ => rfl
  | [a], _, _ => rfl
  | a :: b :: rest, h, hch =>
    have h1 := (List.chain'_cons.mp hch).1
    have ha : a ≠ 47 := h a (by simp)
    have hb : b ≠ 47 := h b (by simp)
    have e1 : (isSpace a && isSpace b) = false := by
      cases hsa : isSpace a <;> cases hsb : isSpace b <;> simp_all
    have e2 : (isSpace a && b == 47) = false := by simp [hb]
    have e3 : (a == 47 && isSpace b) = false := by simp [ha]
    simp [morseSepLength, e1, e2, e3]

theorem splitMorseAux_no_separator : ∀ (s cur : Str), (∀ c ∈ s, c ≠ 47) →
    List.Chain' (fun a b => ¬ (isSpace a = true ∧ isSpace b = true)) s →
    splitMorseAux 0 cur s = [cur.reverse ++ s]
  | [], cur, _, _ => by simp [splitMorseAux]
  | c :: rest, cur, h, hch => by
    rw [splitMorseAux, if_pos (morseSepLength_eq_zero _ h hch),
      splitMorseAux_no_separator rest (c :: cur) (fun x hx => h x (List.mem_cons_of_mem _ hx))
        hch.tail]
    simp

theorem splitSpacesAux_token : ∀ (t : Str), (∀ c ∈ t, isSpace c = false) →
    ∀ (inRun : Bool) (cur rest : Str), t ≠ [] ∨ inRun = false →
      splitSpacesAux inRun cur (t ++ rest) = splitSpacesAux false (t.reverse ++ cur) rest
  | [], _, inRun, cur, rest, h => by
    rcases h with h | h
    · exact absurd rfl h
    · subst h; simp
  | c :: r, ht, inRun, cur, rest, _ => by
    rw [List.cons_append, splitSpacesAux, if_neg (by simp [ht c (List.mem_cons_self _ _)]),
      splitSpacesAux_token r (fun x hx => ht x (List.mem_cons_of_mem _ hx)) false (c :: cur)
        rest (Or.inr rfl)]
    simp

theorem splitSpaces_joined : ∀ (tokens : List Str), tokens ≠ [] →
    (∀ t ∈ tokens, t ≠ [] ∧ ∀ c ∈ t, isSpace c = false) →
    ∀ inRun, splitSpacesAux inRun [] (joinWith [32] tokens) = tokens
  | [], h, _, _ => absurd rfl h
  | [t], _, ht, inRun => by
    obtain ⟨hne, hc⟩ := ht t (List.mem_cons_self _ _)
    have := splitSpacesAux_token t hc inRun [] [] (Or.inl hne)
    rw [List.append_nil] at this
    rw [joinWith_singleton, this]
    simp [splitSpacesAux]
  | t :: u :: l, _, ht, inRun => by
    obtain ⟨hne, hc⟩ := ht t (List.mem_cons_self _ _)
    rw [joinWith_cons_cons, splitSpacesAux_token t hc inRun [] _ (Or.inl hne)]
    rw [List.singleton_append, splitSpacesAux, if_pos (by decide)]
    simp only [Bool.false_eq_true, if_false, List.append_nil, List.reverse_reverse]
    rw [splitSpaces_joined (u :: l) (by simp) (fun x hx => ht x (List.mem_cons_of_mem _ hx))]

/-- On one or more tokens joined by single spaces, `decoders.morse` looks every token up
and joins what it finds. -/
theorem morse_single_word (host : Host) (tokens : List Str) (hne : tokens ≠ [])
    (htok : ∀ t ∈ tokens, t ≠ [] ∧ ∀ c ∈ t, isSpace c = false ∧ c ≠ 47 ∧ c ≠ 124) :
    morse host (joinWith [32] tokens) =
      if (tokens.map (morseLookup host)).flatten = [] then .error "Invalid morse"
      else .ok (tokens.map (morseLookup host)).flatten := by
  obtain ⟨⟨a, ha, hsa⟩, ⟨z, hz, hsz⟩, hall, hch⟩ := joined_tokens_shape tokens hne htok
  have htrim : trim (joinWith [32] tokens) = joinWith [32] tokens :=
    trim_eq_self_of_ends _ (fun x hx => by rw [ha] at hx; rw [← Option.some.inj hx]; exact hsa)
      (fun x hx => by rw [hz] at hx; rw [← Option.some.inj hx]; exact hsz)
  unfold morse
  simp only [htrim, pipeToSlash_eq_self _ (fun c hc => (hall c hc).2),
    splitMorseAux_no_separator _ [] (fun c hc => (hall c hc).1) hch, List.reverse_nil,
    List.nil_append, List.map_cons, List.map_nil, joinWith_singleton]
  unfold splitSpaces
  rw [splitSpaces_joined tokens hne (fun t ht => ⟨(htok t ht).1, fun c hc => ((htok t ht).2 c hc).1⟩),
    joinWith_nil_sep]

set_option maxRecDepth 100000 in
theorem morseTable_entries : ∀ kv ∈ morseTable, kv.1 ≠ "/" →
    ofString kv.1 ≠ [] ∧
    (∀ c ∈ ofString kv.1, isSpace c = false ∧ c ≠ 47 ∧ c ≠ 124) ∧
    morseOwn (ofString kv.1) = some (ofString kv.2) ∧ ofString kv.2 ≠ [] := by
  decide!

/-- Claim C12: for every non-empty sequence of keys of the Morse table other than `/`,
`decoders.morse` applied to the keys joined by single spaces returns the concatenation of
their values in the table, in order; `.... . .-.. .-.. ---` gives `HELLO`. -/
theorem morse_decodes_word (host : Host) (entries : List (String × String))
    (hne : entries ≠ []) (hmem : ∀ kv ∈ entries, kv ∈ morseTable ∧ kv.1 ≠ "/") :
    morse host (joinWith [32] (entries.map fun kv => ofString kv.1)) =
      .ok (entries.flatMap fun kv => ofString kv.2) ∧
    morse host (ofString ".... . .-.. .-.. ---") = .ok (ofString "HELLO") := by
  have main : ∀ (es : List (String × String)), es ≠ [] →
      (∀ kv ∈ es, kv ∈ morseTable ∧ kv.1 ≠ "/") →
      morse host (joinWith [32] (es.map fun kv => ofString kv.1)) =
        .ok (es.flatMap fun kv => ofString kv.2) := by
    intro es hes hm
    have htok : ∀ t ∈ es.map (fun kv => ofString kv.1),
        t ≠ [] ∧ ∀ c ∈ t, isSpace c = false ∧ c ≠ 47 ∧ c ≠ 124 := by
      intro t ht
      obtain ⟨kv, hkv, rfl⟩ := List.mem_map.mp ht
      have := morseTable_entries kv (hm kv hkv).1 (hm kv hkv).2
      exact ⟨this.1, this.2.1⟩
    have hlook : (es.map (fun kv => ofString kv.1)).map (morseLookup host) =
        es.map (fun kv => ofString kv.2) := by
      rw [List.map_map]
      apply List.map_congr_left
      intro kv hkv
      have := morseTable_entries kv (hm kv hkv).1 (hm kv hkv).2
      simp only [Function.comp_apply, morseLookup, this.2.2.1]
    have hflat : (es.map (fun kv => ofString kv.2)).flatten =
        es.flatMap (fun kv => ofString kv.2) := by
      rw [List.flatMap_def]
    rw [morse_single_word host _ (by simpa using hes) htok, hlook, hflat]
    have hnonempty : es.flatMap (fun kv => ofString kv.2) ≠ [] := by
      cases es with
      | nil => exact absurd rfl hes
      | cons kv r =>
        have := morseTable_entries kv (hm kv (List.mem_cons_self _ _)).1
          (hm kv (List.mem_cons_self _ _)).2
        rw [List.flatMap_cons]
        intro h
        exact this.2.2.2 (List.append_eq_nil.mp h).1
    rw [if_neg hnonempty]
  refine ⟨main entries hne hmem, ?_⟩
  exact main [("....", "H"), (".", "E"), (".-..", "L"), (".-..", "L"), ("---", "O")]
    (by simp) (by decide)

/-- Witness of C12 at the keys `...`, `---`, `...` (`SOS`) and a browser whose functions
return their argument. -/
theorem morse_decodes_word_witness :
    morse ⟨id, Except.ok, Except.ok, fun _ => none⟩
        (joinWith [32] ([("...", "S"), ("---", "O"), ("...", "S")].map fun kv => ofString kv.1)) =
      .ok ([("...", "S"), ("---", "O"), ("...", "S")].flatMap fun kv => ofString kv.2) ∧
    morse ⟨id, Except.ok, Except.ok, fun _ => none⟩ (ofString ".... . .-.. .-.. ---") =
      .ok (ofString "HELLO") :=
  morse_decodes_word ⟨id, Except.ok, Except.ok, fun _ => none⟩
    [("...", "S"), ("---", "O"), ("...", "S")] (by simp) (by decide)

/-- Counterexample to C16: `xyz` is no key of the Morse table, yet for every browser in
which objects inherit no property of that name `decoders.morse` returns `?` for it instead
of failing. -/
theorem morse_unknown_counterexample :
    morseOwn (ofString "xyz") = none ∧
    ¬ ∃ host : Host, host.inheritedText (ofString "xyz") = none ∧
      morse host (ofString "xyz") ≠ .ok (ofString "?") := by
  refine ⟨by decide, ?_⟩
  rintro ⟨host, hin, hm⟩
  apply hm
  have := morse_single_word host [ofString "xyz"] (by simp) (by decide)
  rw [joinWith_singleton] at this
  rw [this]
  have hl : morseLookup host (ofString "xyz") = ofString "?" := by
    unfold morseLookup
    rw [show morseOwn (ofString "xyz") = none by decide]
    simp only [hin]
    decide
  simp [hl]
  decide

/-- Claim C16, amended: for one or more tokens joined by single spaces, each token not
empty and free of whitespace, `/` and `|`, none of them a key of the Morse table or the
name of a property that objects inherit (`xyz` for one), `decoders.morse` does not fail:
it returns one `?` for each token. -/
theorem morse_unknown_tokens (host : Host) (tokens : List Str) (hne : tokens ≠ [])
    (htok : ∀ t ∈ tokens, t ≠ [] ∧ ∀ c ∈ t, isSpace c = false ∧ c ≠ 47 ∧ c ≠ 124)
    (hunknown : ∀ t ∈ tokens, morseOwn t = none ∧ host.inheritedText t = none) :
    morse host (joinWith [32] tokens) = .ok (List.replicate tokens.length 63) := by
  have hlook : tokens.map (morseLookup host) = List.replicate tokens.length [63] := by
    rw [List.eq_replicate_iff]
    refine ⟨by simp, ?_⟩
    intro v hv
    obtain ⟨t, ht, rfl⟩ := List.mem_map.mp hv
    unfold morseLookup
    rw [(hunknown t ht).1]
    simp only [(hunknown t ht).2]
  have hflat : (List.replicate tokens.length ([63] : Str)).flatten =
      List.replicate tokens.length 63 := by
    induction tokens.length with
    | zero => rfl
    | succ n ih => rw [List.replicate_succ, List.flatten_cons, ih]; rfl
  rw [morse_single_word host tokens hne htok, hlook, hflat]
  have hpos : 0 < tokens.length := List.length_pos.mpr hne
  rw [if_neg]
  intro h
  have := congrArg List.length h
  rw [List.length_replicate, List.length_nil] at this
  omega

/-- Witness of the amended C16 at the input `xyz hello` and a browser whose functions
return their argument and whose objects inherit nothing. -/
theorem morse_unknown_tokens_witness :
    morse ⟨id, Except.ok, Except.ok, fun _ => none⟩
        (joinWith [32] [ofString "xyz", ofString "hello"]) =
      .ok (List.replicate [ofString "xyz", ofString "hello"].length 63) :=
  morse_unknown_tokens ⟨id, Except.ok, Except.ok, fun _ => none⟩
    [ofString "xyz", ofString "hello"] (by simp) (by decide) (by decide)

/-! ## Byte derivation -/

theorem filter_dropWhile_isSpace (l : Str) :
    (l.dropWhile isSpace).filter (fun c => !isSpace c) = l.filter (fun c => !isSpace c) := by
  induction l with
  | nil => rfl
  | cons a r ih =>
    by_cases h : isSpace a = true
    · simp [List.dropWhile, h, ih]
    · simp [List.dropWhile, h]

theorem removeSpaces_trim (s : Str) : removeSpaces (trim s) = removeSpaces s := by
  unfold removeSpaces trim
  rw [List.filter_reverse, filter_dropWhile_isSpace, List.filter_reverse, List.reverse_reverse,
    filter_dropWhile_isSpace]

theorem trim_eq_nil_iff (s : Str) : trim s = [] ↔ removeSpaces s = [] := by
  constructor
  · intro h
    rw [← removeSpaces_trim, h]
    rfl
  · intro h
    unfold trim
    rw [List.reverse_eq_nil_iff, List.dropWhile_eq_nil_iff]
    intro x hx
    have hx2 : x ∈ s := (List.dropWhile_sublist _).subset (List.mem_reverse.mp hx)
    by_contra hsp
    have : x ∈ removeSpaces s := List.mem_filter.mpr ⟨hx2, by simpa using hsp⟩
    rw [h] at this
    exact List.not_mem_nil _ this

theorem all_hex_or_space (l : Str) :
    (l.all fun c => isHexDigit c || isSpace c) = (removeSpaces l).all isHexDigit := by
  unfold removeSpaces
  induction l with
  | nil => rfl
  | cons a r ih =>
    by_cases h : isSpace a = true
    · simp [List.filter_cons, h, ih]
    · simp [List.filter_cons, h, ih]

theorem stripPadding_shape (d : Str) :
    ∃ k, k ≤ 2 ∧ d = stripPadding d ++ List.replicate k 61 := by
  unfold stripPadding
  split
  · rename_i r heq
    refine ⟨2, le_refl 2, ?_⟩
    have := congrArg List.reverse heq
    rw [List.reverse_reverse] at this
    rw [this]
    simp
  · rename_i r _ heq
    refine ⟨1, by omega, ?_⟩
    have := congrArg List.reverse heq
    rw [List.reverse_reverse] at this
    rw [this]
    simp
  · exact ⟨0, by omega, by simp⟩

/-- On a string without ASCII whitespace whose length is divisible by 4, `atob` succeeds
exactly on standard Base64: characters of the alphabet, then at most two `=`. -/
theorem atob_isSome_iff (d : Str) (hlen : d.length % 4 = 0)
    (hws : ∀ c ∈ d, isAsciiSpace c = false) :
    (atob d).isSome = true ↔
      ∃ body k, k ≤ 2 ∧ d = body ++ List.replicate k 61 ∧
        ∀ c ∈ body, (b64Value c).isSome = true := by
  have hfil : d.filter (fun c => !isAsciiSpace c) = d :=
    filter_eq_self_of_all _ _ (fun c hc => by simp [hws c hc])
  unfold atob
  simp only [hfil, hlen, if_true]
  constructor
  · intro h
    obtain ⟨k, hk, hd⟩ := stripPadding_shape d
    refine ⟨stripPadding d, k, hk, hd, ?_⟩
    split_ifs at h with h1 h2
    · simp at h
    · exact List.all_eq_true.mp h2
    · simp at h
  · rintro ⟨body, k, hk, rfl, hbody⟩
    have hne : ∀ c ∈ body, c ≠ 61 := by
      intro c hc h61
      have := hbody c hc
      rw [h61] at this
      exact absurd this (by decide)
    rw [stripPadding_append body k hk hne]
    have hl : ¬ body.length % 4 = 1 := by
      rw [List.length_append, List.length_replicate] at hlen
      omega
    rw [if_neg hl, if_pos (List.all_eq_true.mpr hbody)]
    rfl

/-- Claim C17: `toBytes` returns bytes for every input, by the first rule that applies.
If the input without its whitespace is made of hexadecimal digits only and has even
length, the result is the bytes of its digit pairs (`abcd` gives 0xAB 0xCD although it is
valid Base64 too). Otherwise, if that string with `-` and `_` turned into `+` and `/` has
a length divisible by 4 and is Base64 (characters of the alphabet, then at most two `=`),
which is when `atob` accepts it, the result is the bytes `atob` decodes.
Otherwise the result is the UTF-8 encoding of the trimmed input. -/
theorem toBytes_rules (input : Str) :
    toBytes input =
      (if (removeSpaces input).all isHexDigit = true ∧ (removeSpaces input).length % 2 = 0 then
        hexPairs (removeSpaces input)
      else if (urlSafeToStd (removeSpaces input)).length % 4 = 0 ∧
          (atob (urlSafeToStd (removeSpaces input))).isSome = true then
        (atob (urlSafeToStd (removeSpaces input))).getD []
      else textEncode (trim input)) ∧
    (∀ n, (removeSpaces input).length = 2 * n →
      (hexPairs (removeSpaces input)).length = n ∧
      ∀ i, i < n → (hexPairs (removeSpaces input)).getD i 0 =
        hexVal ((removeSpaces input).getD (2 * i) 0) * 16 +
        hexVal ((removeSpaces input).getD (2 * i + 1) 0)) ∧
    ((urlSafeToStd (removeSpaces input)).length % 4 = 0 →
      ((atob (urlSafeToStd (removeSpaces input))).isSome = true ↔
        ∃ body k, k ≤ 2 ∧ urlSafeToStd (removeSpaces input) = body ++ List.replicate k 61 ∧
          ∀ c ∈ body, (b64Value c).isSome = true)) ∧
    toBytes (ofString "abcd") = [171, 205] ∧ atob (ofString "abcd") = some [105, 183, 29] := by
  have hws : ∀ c ∈ urlSafeToStd (removeSpaces input), isAsciiSpace c = false := by
    intro c hc
    unfold urlSafeToStd at hc
    obtain ⟨x, hx, rfl⟩ := List.mem_map.mp hc
    have hxs : isSpace x = false := by
      have := (List.mem_filter.mp hx).2
      simpa using this
    split_ifs
    · decide
    · decide
    · revert hxs
      simp only [isSpace, isAsciiSpace, Bool.or_eq_false_iff, beq_eq_false_iff_ne, ne_eq]
      tauto
  refine ⟨?_, fun n hn => hexPairs_spec n _ hn, fun hl => atob_isSome_iff _ hl hws,
    by decide, by decide⟩
  unfold toBytes
  simp only [removeSpaces_trim, all_hex_or_space, ne_eq, trim_eq_nil_iff]
  by_cases hhex : (removeSpaces input).all isHexDigit = true ∧ (removeSpaces input).length % 2 = 0
  · by_cases hnil : removeSpaces input = []
    · rw [if_neg (fun h => h.1 hnil), if_pos hhex, hnil]
      have h1 : urlSafeToStd ([] : Str) = [] := rfl
      have h2 : atob [] = some [] := by decide
      simp [h1, h2, hexPairs]
    · rw [if_pos ⟨hnil, hhex⟩, if_pos hhex]
  · rw [if_neg (fun h => hhex h.2), if_neg hhex]
    by_cases hlen : (urlSafeToStd (removeSpaces input)).length % 4 = 0
    · rw [if_pos hlen]
      cases hat : atob (urlSafeToStd (removeSpaces input)) with
      | none => simp
      | some b => simp [hlen]
    · rw [if_neg hlen, if_neg (fun h => hlen h.1)]

end AutoDecode
